import Mathlib

/-!
Verification of the unity-api-mcp documentation engine.

This file gives a shallow embedding, in Lean, of the core of the
`unity_api_mcp` Python package — the XML doc parser (`xml_parser.py`),
the C# triple-slash comment parser (`cs_doc_parser.py`), the SQLite
record store and retrieval layer (`db.py`), and the signature-lookup
cascade of `server.py` — and proves properties of that embedding.

Modelling conventions:
* Python strings are Lean `String`s; character-level scans work on `String.data`.
* Regex searches from the source are hand-compiled into decidable scanning
  functions, specialised to the concrete patterns appearing in the code.
* SQLite tables are lists of rows; `INSERT OR REPLACE` keyed on the `fqn`
  primary key is remove-then-append; `LIKE` is modelled with its
  ASCII-case-insensitive semantics and `%`/`_` wildcards; the FTS5 `bm25`
  ranking statistic is an external SQLite function and is therefore a
  parameter of the search model, while all ranking adjustments computed by
  the repository's own SQL are modelled explicitly.
-/

namespace UnityApiMcp

/-- ASCII lower-casing, as applied by `re.IGNORECASE` on the ASCII letters
appearing in the source's patterns and by SQLite's `LIKE` folding. -/
def lowerChar (c : Char) : Char :=
  if 'A' ≤ c ∧ c ≤ 'Z' then Char.ofNat (c.toNat + 32) else c

/-- Case-insensitive character comparison (ASCII). -/
def eqCI (a b : Char) : Bool := lowerChar a = lowerChar b

/-- Whitespace, as matched by Python's `\s` on the ASCII range. -/
def pyIsSpace (c : Char) : Bool :=
  c = ' ' || c = '\t' || c = '\n' || c = '\x0d' || c = '\x0b' || c = '\x0c'

/-- Word character, as matched by Python's `\w` on the ASCII range. -/
def isWordChar (c : Char) : Bool :=
  ('a' ≤ c && c ≤ 'z') || ('A' ≤ c && c ≤ 'Z') || ('0' ≤ c && c ≤ '9') || c = '_'

/-- Decimal digit. -/
def isDigitChar (c : Char) : Bool := '0' ≤ c && c ≤ '9'

/-- Alphanumeric character (token character of the FTS5 tokenizer model). -/
def isAlnum (c : Char) : Bool :=
  ('a' ≤ c && c ≤ 'z') || ('A' ≤ c && c ≤ 'Z') || ('0' ≤ c && c ≤ '9')

/-- Python `str.strip()` on a character list. -/
def pyStripList (cs : List Char) : List Char :=
  ((cs.dropWhile pyIsSpace).reverse.dropWhile pyIsSpace).reverse

/-- Python `str.strip()`. -/
def pyStrip (s : String) : String := ⟨pyStripList s.data⟩

/-! ## `xml_parser._split_fqn` — splitting a fully-qualified name

The Python code computes `base = fqn.split("(")[0]` and then
`parts = base.split(".")`; the embedding mirrors both steps. -/

/-- Everything before the first `(`, as `fqn.split("(")[0]` computes it. -/
def stripParen (cs : List Char) : List Char := cs.takeWhile (fun c => c ≠ '(')

/-- Python `str.split(".")`: the (always non-empty) list of dot-separated
segments. -/
def splitDots : List Char → List (List Char)
  | [] => [[]]
  | c :: cs =>
    match splitDots cs with
    | [] => [[c]]
    | s :: rest => if c = '.' then [] :: s :: rest else (c :: s) :: rest

/-- Joining with dots, the inverse of `splitDots`. -/
def joinDots : List (List Char) → List Char
  | [] => []
  | [s] => s
  | s :: rest => s ++ '.' :: joinDots rest

/-- Dot-segments of the parameter-stripped base of a fully-qualified name:
`fqn.split("(")[0].split(".")` in the source. -/
def fqnSegs (fqn : String) : List (List Char) := splitDots (stripParen fqn.data)

/-- Embedding of `xml_parser._split_fqn`: split a fully-qualified name into
`(namespace, class_name, member_name)`.  Faithful to the source: the
parameter list (everything from the first `(`) is stripped, the remainder is
split on dots, and the segments are distributed according to `member_type`
and the segment count. -/
def splitFqn (fqn member_type : String) : String × String × String :=
  let parts := fqnSegs fqn
  if member_type = "type" then
    if 2 ≤ parts.length then
      (⟨joinDots parts.dropLast⟩, ⟨parts.getLastD []⟩, "")
    else
      ("", ⟨parts.headD []⟩, "")
  else if 3 ≤ parts.length then
    (⟨joinDots parts.dropLast.dropLast⟩, ⟨parts.dropLast.getLastD []⟩, ⟨parts.getLastD []⟩)
  else if parts.length = 2 then
    ("", ⟨parts.headD []⟩, ⟨parts.getLastD []⟩)
  else
    ("", "", ⟨parts.headD []⟩)

/-! ## SQLite `LIKE` and the search-ranking adjustments of `db.search`

SQLite's `LIKE` folds the ASCII letters of both operands (its default,
`case_sensitive_like` off, as the code never changes it), treats `%` as
any-sequence and `_` as any-character. -/

/-- SQLite `LIKE` pattern matching, fuelled so that the definition is
structurally recursive (the fuel strictly dominates pattern length plus
candidate length, so the out-of-fuel branch is never reached from
`likeM`). -/
def likeF : Nat → List Char → List Char → Bool
  | 0, _, _ => false
  | _ + 1, [], s => s.isEmpty
  | fuel + 1, p :: ps, s =>
    if p = '%' then
      likeF fuel ps s ||
        (match s with
         | [] => false
         | _ :: s2 => likeF fuel (p :: ps) s2)
    else if p = '_' then
      (match s with
       | [] => false
       | _ :: s2 => likeF fuel ps s2)
    else
      (match s with
       | [] => false
       | c :: s2 => eqCI p c && likeF fuel ps s2)

/-- SQLite `LIKE` (pattern, then candidate): `%` matches any sequence, `_`
any single character, anything else compares ASCII-case-insensitively. -/
def likeM (ps s : List Char) : Bool := likeF (ps.length + s.length + 1) ps s

/-- SQLite `LIKE` on strings. -/
def likeMatch (pattern s : String) : Bool := likeM pattern.data s.data

/-! ### Ranking adjustments in `db.search` -/

/-- Column weights the source passes to `bm25` in `db.search`:
`bm25(api_fts, 1.0, 5.0, 10.0, 0.5)`, with the FTS columns declared in the
order `fqn, class_name, member_name, summary`. -/
structure Bm25Weights where
  fqn : ℚ
  class_name : ℚ
  member_name : ℚ
  summary : ℚ

deriving DecidableEq

/-- The literal weight tuple of `db.py` line 121, matched to the FTS column
declaration order of the schema. -/
def searchBm25Weights : Bm25Weights :=
  { fqn := 1.0, class_name := 5.0, member_name := 10.0, summary := 0.5 }

/-- Namespace-depth penalty of `db.search`:
`(LENGTH(namespace) - LENGTH(REPLACE(namespace, '.', ''))) * 0.5`. -/
def depthPenalty (ns : String) : ℚ :=
  ((ns.data.countP (fun c => c = '.')) : ℚ) * 0.5

/-- Namespace-root bonus of `db.search`: the SQL `CASE` on `r.namespace`
(`IN` compares byte-exactly; `LIKE` is ASCII-case-insensitive). -/
def nsBonus (ns : String) : ℚ :=
  if ns = "UnityEngine" ∨ ns = "UnityEditor" then -2.0
  else if likeMatch "UnityEngine.%" ns || likeMatch "UnityEditor.%" ns then -1.0
  else 0.0

/-- Type-kind bonus of `db.search`: `-1` for `member_type = 'type'`. -/
def typeBonus (mt : String) : ℚ := if mt = "type" then -1.0 else 0.0

/-! ## Deprecation detection

Both parsers compile the same two regexes:
`_DEPRECATED_PATTERNS = \b(obsolete|deprecated)\b|use\s+\S+\s+instead`
(case-insensitive), and the hint extractor
`(?:use|Use)\s+(\S+?)[\s.]` (case-sensitive).  They are hand-compiled
here into decidable scans over the character list. -/

/-- Match a literal case-insensitively at the head, returning the remaining
suffix on success. -/
def ciStrip : List Char → List Char → Option (List Char)
  | [], cs => some cs
  | _ :: _, [] => none
  | p :: ps, c :: cs => if eqCI p c then ciStrip ps cs else none

/-- Match a literal case-sensitively at the head, returning the remaining
suffix on success. -/
def litStrip : List Char → List Char → Option (List Char)
  | [], cs => some cs
  | _ :: _, [] => none
  | p :: ps, c :: cs => if p = c then litStrip ps cs else none

/-- Consume a maximal non-empty run of characters satisfying `p` (the
greedy `X+` of the source regexes, whose backtracking can never help here
because each run is delimited by a character class disjoint from it). -/
def eatRun (p : Char → Bool) : List Char → Option (List Char)
  | [] => none
  | c :: rest => if p c then some (rest.dropWhile p) else none

/-- Does `use\s+\S+\s+instead` (case-insensitive) match at the head of
`s`? -/
def useInsteadAt (s : List Char) : Bool :=
  match ciStrip "use".data s with
  | none => false
  | some r1 =>
    match eatRun pyIsSpace r1 with
    | none => false
    | some r2 =>
      match eatRun (fun c => !pyIsSpace c) r2 with
      | none => false
      | some r3 =>
        match eatRun pyIsSpace r3 with
        | none => false
        | some r4 => (ciStrip "instead".data r4).isSome

/-- Does `\b w \b` (case-insensitive, `w` a word made of word characters)
match at the head of `s`, with `prev` the character just before the current
position? -/
def wordCIAt (prev : Option Char) (w s : List Char) : Bool :=
  match ciStrip w s with
  | none => false
  | some rest =>
    (match prev with
     | none => true
     | some c => !isWordChar c) &&
    (match rest with
     | [] => true
     | c :: _ => !isWordChar c)

/-- Does `_DEPRECATED_PATTERNS` match at the head of `s`? -/
def depMatchAt (prev : Option Char) (s : List Char) : Bool :=
  wordCIAt prev "obsolete".data s || wordCIAt prev "deprecated".data s || useInsteadAt s

/-- Scan of `re.search` for `_DEPRECATED_PATTERNS`: try every position,
carrying the consumed prefix (whose last character decides `\b`). -/
def depScanGo (pre : List Char) : List Char → Bool
  | [] => false
  | c :: rest => depMatchAt pre.getLast? (c :: rest) || depScanGo (pre ++ [c]) rest

/-- `bool(_DEPRECATED_PATTERNS.search(s))` of the source. -/
def depMatch (s : String) : Bool := depScanGo [] s.data

/-- The lazy `(\S+?)[\s.]` tail of the hint regex: grow the captured token
one non-space character at a time and stop at the first position whose next
character is whitespace or a dot. -/
def lazyTok (acc : List Char) : List Char → Option (List Char)
  | [] => none
  | c :: rest =>
    if pyIsSpace c then none
    else
      match rest with
      | [] => none
      | d :: _ =>
        if pyIsSpace d || d = '.' then some (acc ++ [c])
        else lazyTok (acc ++ [c]) rest

/-- Does `(?:use|Use)\s+(\S+?)[\s.]` match at the head of `s`?  Returns
the captured group. -/
def hintAt (s : List Char) : Option (List Char) :=
  match (litStrip "use".data s).orElse (fun _ => litStrip "Use".data s) with
  | none => none
  | some r1 =>
    match eatRun pyIsSpace r1 with
    | none => none
    | some r2 => lazyTok [] r2

/-- Scan of `re.search` for the hint regex: leftmost match wins. -/
def hintScan : List Char → Option (List Char)
  | [] => none
  | c :: rest =>
    match hintAt (c :: rest) with
    | some tok => some tok
    | none => hintScan rest

/-- The extracted deprecation hint (`match.group(1)` of the hint regex, or
the empty string when the regex does not match). -/
def depHint (s : String) : String :=
  match hintScan s.data with
  | some tok => ⟨tok⟩
  | none => ""

/-! ## Record store (`db.py`)

The canonical parsed record (the dict produced by the parsers) and the
stored row (the `api_records` table row).  `insert_records` serializes
`params_json` with `json.dumps` and converts the `deprecated` bool with
`int(...)`; `INSERT OR REPLACE` keyed on the `fqn` primary key deletes any
conflicting row and appends the new one. -/

/-- One `{name, description}` parameter entry of a parsed record. -/
structure Param where
  name : String
  description : String

deriving DecidableEq

/-- A parsed record, as the parsers emit it (`namespace` is called `nspace`
because `namespace` is reserved in Lean). -/
structure ApiRecord where
  fqn : String
  nspace : String
  class_name : String
  member_name : String
  member_type : String
  summary : String
  params_json : List Param
  returns_text : String
  deprecated : Bool
  deprecation_hint : String

deriving DecidableEq

/-- A stored row of the `api_records` table: all columns `TEXT` except
`deprecated` (`INTEGER`); `params_json` holds the JSON serialization. -/
structure Row where
  fqn : String
  nspace : String
  class_name : String
  member_name : String
  member_type : String
  summary : String
  params_json : String
  returns_text : String
  deprecated : Nat
  deprecation_hint : String

deriving DecidableEq

/-- Lowercase hexadecimal digit. -/
def hexDigit (n : Nat) : Char :=
  if n < 10 then Char.ofNat (48 + n) else Char.ofNat (87 + n)

/-- A `\uXXXX` escape. -/
def u4 (n : Nat) : List Char :=
  ['\\', 'u', hexDigit (n / 4096 % 16), hexDigit (n / 256 % 16),
   hexDigit (n / 16 % 16), hexDigit (n % 16)]

/-- Escaping of one character, as Python `json.dumps` with the default
`ensure_ascii=True` renders it. -/
def jsonEscChar (c : Char) : List Char :=
  if c = '"' then ['\\', '"']
  else if c = '\\' then ['\\', '\\']
  else if c = '\n' then ['\\', 'n']
  else if c = '\t' then ['\\', 't']
  else if c = '\x0d' then ['\\', 'r']
  else if c = '\x08' then ['\\', 'b']
  else if c = '\x0c' then ['\\', 'f']
  else if c.toNat < 32 then u4 c.toNat
  else if c.toNat < 127 then [c]
  else if c.toNat < 65536 then u4 c.toNat
  else u4 (55296 + (c.toNat - 65536) / 1024) ++ u4 (56320 + (c.toNat - 65536) % 1024)

/-- A JSON string literal. -/
def jsonStr (s : String) : String := ⟨'"' :: s.data.flatMap jsonEscChar ++ ['"']⟩

/-- `json.dumps` of the params list (default separators). -/
def jsonDumpsParams (ps : List Param) : String :=
  "[" ++ String.intercalate ", " (ps.map (fun p =>
    "\x7b\"name\": " ++ jsonStr p.name ++ ", \"description\": " ++
      jsonStr p.description ++ "\x7d")) ++ "]"

/-- The row tuple `insert_records` builds from a parsed record. -/
def encodeRecord (r : ApiRecord) : Row :=
  { fqn := r.fqn, nspace := r.nspace, class_name := r.class_name,
    member_name := r.member_name, member_type := r.member_type,
    summary := r.summary, params_json := jsonDumpsParams r.params_json,
    returns_text := r.returns_text,
    deprecated := if r.deprecated then 1 else 0,
    deprecation_hint := r.deprecation_hint }

/-- `INSERT OR REPLACE` of one row, keyed on the `fqn` primary key. -/
def insertOne (tbl : List Row) (row : Row) : List Row :=
  tbl.filter (fun t => t.fqn ≠ row.fqn) ++ [row]

/-- `db.insert_records`: encode and insert each record in order. -/
def insertRecords (tbl : List Row) (rs : List ApiRecord) : List Row :=
  rs.foldl (fun t r => insertOne t (encodeRecord r)) tbl

/-- `db.get_by_fqn`: exact lookup on the primary key. -/
def getByFqn (tbl : List Row) (q : String) : Option Row :=
  tbl.find? (fun t => t.fqn = q)

/-- The primary-key invariant of the `api_records` table. -/
def uniqueFqn (tbl : List Row) : Prop :=
  tbl.Pairwise (fun a b => a.fqn ≠ b.fqn)

/-- Number of rows carrying a given fqn. -/
def countFqn (tbl : List Row) (q : String) : Nat :=
  (tbl.filter (fun t => t.fqn = q)).length

/-! ## Free-text search (`db.search`) and the lookup cascade of
`server.get_method_signature`

`_escape_fts` maps dots/hyphens/parens to spaces, deletes quotes and
asterisks, and wraps each whitespace-separated term in double quotes.  An
FTS5 `MATCH` on such a query is an implicit AND of phrases; each phrase is
the token sequence of its quoted term under the unicode61 tokenizer
(modelled on the ASCII range: maximal alphanumeric runs, case-folded), and
a phrase with no tokens matches nothing.  `bm25` is an SQLite-internal
statistic and is a parameter of the model; every ranking adjustment the
repository's own SQL adds is modelled explicitly. -/

/-- Match a literal at the head of a list, returning the remainder. -/
def listStrip {α : Type} [DecidableEq α] : List α → List α → Option (List α)
  | [], cs => some cs
  | _ :: _, [] => none
  | p :: ps, c :: cs => if p = c then listStrip ps cs else none

/-- Contiguous-sublist test. -/
def listInfix {α : Type} [DecidableEq α] : List α → List α → Bool
  | ph, [] => (listStrip ph ([] : List α)).isSome
  | ph, c :: rest => (listStrip ph (c :: rest)).isSome || listInfix ph rest

/-- Split into maximal runs of characters satisfying `p`, transforming each
kept character with `f`; runs are returned in order, without empties. -/
def runSplitGo (p : Char → Bool) (f : Char → Char) (acc : List Char) :
    List Char → List (List Char)
  | [] => if acc.isEmpty then [] else [acc.reverse]
  | c :: rest =>
    if p c then runSplitGo p f (f c :: acc) rest
    else if acc.isEmpty then runSplitGo p f [] rest
    else acc.reverse :: runSplitGo p f [] rest

/-- Python `str.split()` (whitespace runs, no empties). -/
def wsSplit (cs : List Char) : List (List Char) :=
  runSplitGo (fun c => !pyIsSpace c) id [] cs

/-- FTS5 unicode61 tokenization, modelled on the ASCII range: maximal
alphanumeric runs, lowercased. -/
def tokList (cs : List Char) : List (List Char) :=
  runSplitGo isAlnum lowerChar [] cs

/-- The character mapping of `db._escape_fts`: dots, hyphens and parens
become spaces; double quotes and asterisks are removed. -/
def escapeMapChar (c : Char) : Option Char :=
  if c = '.' then some ' '
  else if c = '"' then none
  else if c = '*' then none
  else if c = '-' then some ' '
  else if c = '(' then some ' '
  else if c = ')' then some ' '
  else some c

/-- The whitespace-separated terms surviving `_escape_fts`. -/
def ftsTerms (q : String) : List (List Char) :=
  wsSplit (q.data.filterMap escapeMapChar)

/-- `db._escape_fts`: quote each surviving term, or return the mapped
string unchanged when no term survives. -/
def escapeFts (q : String) : String :=
  let mapped := q.data.filterMap escapeMapChar
  let terms := wsSplit mapped
  if terms = [] then ⟨mapped⟩
  else String.intercalate " " (terms.map (fun t => ⟨'"' :: (t ++ ['"'])⟩))

/-- Does one quoted phrase (its token sequence) match a row?  A phrase
matches when its tokens occur consecutively in some indexed column's token
sequence; a tokenless phrase matches nothing. -/
def phraseHit (ph : List (List Char)) (r : Row) : Bool :=
  !ph.isEmpty &&
    (listInfix ph (tokList r.fqn.data) || listInfix ph (tokList r.class_name.data) ||
     listInfix ph (tokList r.member_name.data) || listInfix ph (tokList r.summary.data))

/-- Stable insertion into a sorted list (the model of `ORDER BY`). -/
def insertSorted {α : Type} (le : α → α → Bool) (a : α) : List α → List α
  | [] => [a]
  | b :: t => if le a b then a :: b :: t else b :: insertSorted le a t

/-- Stable insertion sort (the model of `ORDER BY`). -/
def sortBy {α : Type} (le : α → α → Bool) : List α → List α
  | [] => []
  | a :: t => insertSorted le a (sortBy le t)

/-- The full ranking expression of `db.search`: the external `bm25`
statistic plus the depth penalty, namespace-root bonus and type-kind
bonus. -/
def searchRank (bm25 : Row → ℚ) (r : Row) : ℚ :=
  bm25 r + depthPenalty r.nspace + nsBonus r.nspace + typeBonus r.member_type

/-- `db.search`: empty cleaned query means an empty result (not an error);
otherwise the rows matching every phrase (and the optional `member_type`
filter) are ranked ascending and capped at `n`. -/
def searchRows (bm25 : Row → ℚ) (db : List Row) (q : String) (n : Nat)
    (member_type : Option String) : List Row :=
  let clean := escapeFts q
  if pyStrip clean = "" then []
  else
    let phrases := (ftsTerms q).map tokList
    let hits := db.filter (fun r =>
      phrases.all (fun ph => phraseHit ph r) &&
      (match member_type with
       | none => true
       | some t => r.member_type = t))
    (sortBy (fun a b => searchRank bm25 a ≤ searchRank bm25 b) hits).take n

/-- The four possible outcomes of `get_method_signature`; each corresponds
to one of its `return` statements, so the function is total and never
raises. -/
inductive LookupResult where
  | exact (r : Row)
  | overloads (rows : List Row)
  | fuzzy (rows : List Row)
  | noMatch

deriving DecidableEq

/-- Stage 2 of the cascade: `SELECT * FROM api_records WHERE fqn LIKE
q || '%' ORDER BY fqn`. -/
def prefixRows (db : List Row) (q : String) : List Row :=
  sortBy (fun a b => a.fqn ≤ b.fqn) (db.filter (fun r => likeMatch (q ++ "%") r.fqn))

/-- `server.get_method_signature`: exact primary-key lookup, then the LIKE
prefix scan (all overloads), then ranked free-text search with `n=5`, then
an explicit no-match result. -/
def getMethodSignature (bm25 : Row → ℚ) (db : List Row) (q : String) : LookupResult :=
  match getByFqn db q with
  | some r => .exact r
  | none =>
    let rows := prefixRows db q
    if rows ≠ [] then .overloads rows
    else
      let results := searchRows bm25 db q 5 none
      if results ≠ [] then .fuzzy results
      else .noMatch

/-! ## Comment doc parser (`cs_doc_parser.py`)

The declaration grammars are hand-compiled from the module's regexes.
Greedy quantifiers whose character class is disjoint from what follows are
compiled as maximal runs; every `\s+` that precedes the whitespace-
absorbing lazy type class of the member grammars, the optional modifier
groups and the lazy groups themselves backtrack through `Option.orElse`
in continuation style, mirroring the regex engine's stack discipline
(later choice points are exhausted before earlier ones). -/

/-- Character class `[\w<>\[\],\s?]` of the declaration type position. -/
def typeClassChar (c : Char) : Bool :=
  isWordChar c || c = '<' || c = '>' || c = '[' || c = ']' || c = ',' ||
    pyIsSpace c || c = '?'

/-- Literal keyword followed by `\s+`. -/
def eatKwWs (w : List Char) (s : List Char) : Option (List Char) :=
  (litStrip w s).bind (fun r => eatRun pyIsSpace r)

/-- First matching alternative of a keyword alternation (the alternatives
used in the source are never prefixes of one another, so at most one can
match at a given position). -/
def eatChoice : List (List Char) → List Char → Option (List Char)
  | [], _ => none
  | w :: ws, s =>
    match litStrip w s with
    | some r => some r
    | none => eatChoice ws s

/-- Optional modifier group `(?:kw\s+)?`: try taking it, fall back to not
taking it when the continuation fails. -/
def optMod {α : Type} (w : List Char) (k : List Char → Option α) (s : List Char) :
    Option α :=
  match eatKwWs w s with
  | some r => (k r).orElse (fun _ => k s)
  | none => k s

/-- The lazy type group `(?:[\w<>\[\],\s?]+?)`: consume at least one
class character, trying the continuation after each. -/
def lazyType {α : Type} (k : List Char → Option α) : List Char → Option α
  | [] => none
  | c :: rest =>
    if typeClassChar c then (k rest).orElse (fun _ => lazyType k rest)
    else none

/-- Greedy `(\w+)` capture. -/
def eatName (s : List Char) : Option (List Char × List Char) :=
  let nm := s.takeWhile isWordChar
  if nm.isEmpty then none else some (nm, s.dropWhile isWordChar)

/-- `_NAMESPACE_RE`: `^\s*namespace\s+([\w.]+)`. -/
def nsMatch (l : String) : Option String :=
  let s := l.data.dropWhile pyIsSpace
  (eatKwWs "namespace".data s).bind (fun r =>
    let nm := r.takeWhile (fun c => isWordChar c || c = '.')
    if nm.isEmpty then none else some (⟨nm⟩ : String))

/-- `_CLASS_RE`: optional access modifier (followed by `\s*`), the
optional `static`/`abstract`/`sealed` and partial-type modifiers, a
type keyword, `\s+`, then the captured name. -/
def clsMatch (l : String) : Option String :=
  let s0 := l.data.dropWhile pyIsSpace
  let afterAccess := fun (s1 : List Char) =>
    optMod "static".data (fun s2 =>
      optMod "abstract".data (fun s3 =>
        optMod "sealed".data (fun s4 =>
          optMod "partial".data (fun s5 =>
            (eatChoice ["class".data, "struct".data, "interface".data, "enum".data]
                s5).bind (fun r =>
              (eatRun pyIsSpace r).bind (fun r2 =>
                (eatName r2).map (fun nr => (⟨nr.1⟩ : String))))) s4) s3) s2) s1
  match eatChoice ["public".data, "internal".data, "private".data,
      "protected".data] s0 with
  | some r =>
    (afterAccess (r.dropWhile pyIsSpace)).orElse
      (fun _ => afterAccess (s0.dropWhile pyIsSpace))
  | none => afterAccess (s0.dropWhile pyIsSpace)

/-- Greedy `\s*` continuation: consume as many whitespace characters as
possible first, backtracking to shorter runs when the continuation
fails, as the regex engine does. -/
def wsMore {α : Type} (k : List Char → Option α) : List Char → Option α
  | [] => k []
  | c :: rest =>
    if pyIsSpace c then (wsMore k rest).orElse (fun _ => k (c :: rest))
    else k (c :: rest)

/-- Greedy `\s+` continuation: at least one whitespace character, longest
run first, backtracking into shorter runs.  The member grammars need the
backtracking because their lazy type class `[\w<>\[\],\s?]+?` itself
absorbs whitespace, so a preceding `\s+` may have to give characters back
to it. -/
def wsPlus {α : Type} (k : List Char → Option α) : List Char → Option α
  | [] => none
  | c :: rest => if pyIsSpace c then wsMore k rest else none

/-- Required keyword group `kw\s+` with a backtracking `\s+`. -/
def eatKwWsBT {α : Type} (w : List Char) (k : List Char → Option α)
    (s : List Char) : Option α :=
  match litStrip w s with
  | some r => wsPlus k r
  | none => none

/-- Optional modifier group `(?:kw\s+)?` with a backtracking `\s+`: try
taking the group (every split of its whitespace run), fall back to
skipping it. -/
def optModBT {α : Type} (w : List Char) (k : List Char → Option α)
    (s : List Char) : Option α :=
  match litStrip w s with
  | some r => (wsPlus k r).orElse (fun _ => k s)
  | none => k s

/-- Tail `\s*(?:<[^>]+>)?\s*\(` of `_METHOD_RE` after the captured
name. -/
def methodTail (r : List Char) : Bool :=
  let a := r.dropWhile pyIsSpace
  match a with
  | '<' :: g =>
    let content := g.takeWhile (fun c => c ≠ '>')
    if content.isEmpty then false
    else
      match g.dropWhile (fun c => c ≠ '>') with
      | '>' :: b => (b.dropWhile pyIsSpace).head? = some '('
      | _ => false
  | '(' :: _ => true
  | _ => false

/-- Shared shape of the member grammars `_METHOD_RE`/`_PROPERTY_RE`/
`_FIELD_RE`/`_EVENT_RE`: `^\s*`, the required access alternation with a
backtracking `\s+`, the optional modifier groups, the required keyword
(for `event`), the lazy `[\w<>\[\],\s?]+?` type class, `\s+`, the
captured `(\w+)` name, then a grammar-specific tail.  All the `\s+`
quantifiers before the type class backtrack into it (the class contains
`\s`); the `\s+` after it and the `\w+` name are maximal runs, faithful
because what follows each is disjoint from its class. -/
def memberGrammar (mods : List (List Char)) (requireKw : Option (List Char))
    (tail : List Char → Bool) (l : String) : Option String :=
  let s0 := l.data.dropWhile pyIsSpace
  let afterType : List Char → Option String := fun s3 =>
    (eatRun pyIsSpace s3).bind (fun s4 =>
      (eatName s4).bind (fun nr =>
        if tail nr.2 then some (⟨nr.1⟩ : String) else none))
  let afterMods : List Char → Option String :=
    match requireKw with
    | none => fun s => lazyType afterType s
    | some kw => fun s => eatKwWsBT kw (fun s2 => lazyType afterType s2) s
  let step := mods.foldr (fun w k => fun s => optModBT w k s) afterMods
  match eatChoice ["public".data, "internal".data, "protected".data] s0 with
  | some r => wsPlus step r
  | none => none

/-- `_METHOD_RE` captured name. -/
def methodMatch (l : String) : Option String :=
  memberGrammar ["static".data, "virtual".data, "override".data, "abstract".data,
    "new".data, "async".data] none methodTail l

/-- `_PROPERTY_RE` captured name. -/
def propMatch (l : String) : Option String :=
  memberGrammar ["static".data, "virtual".data, "override".data, "abstract".data,
    "new".data] none
    (fun r => (r.dropWhile pyIsSpace).head? = some '\x7b') l

/-- `_FIELD_RE` captured name. -/
def fieldMatch (l : String) : Option String :=
  memberGrammar ["static".data, "readonly".data, "const".data] none
    (fun r =>
      match (r.dropWhile pyIsSpace).head? with
      | some c => c = ';' || c = '='
      | none => false) l

/-- `_EVENT_RE` captured name. -/
def eventMatch (l : String) : Option String :=
  memberGrammar ["static".data] (some "event".data)
    (fun r =>
      match (r.dropWhile pyIsSpace).head? with
      | some c => c = ';' || c = '\x7b'
      | none => false) l

/-- Lazy `(.*?)` up to a closing literal, returning the content and the
remainder after the close; `allowNl` distinguishes `re.DOTALL` patterns
(the summary regex) from the default (returns/params), where `.` does not
cross a newline. -/
def lazyUntil (close : List Char) (allowNl : Bool) : List Char → Option (List Char × List Char)
  | [] => none
  | c :: rest =>
    match litStrip close (c :: rest) with
    | some after => some ([], after)
    | none =>
      if !allowNl && c = '\n' then none
      else (lazyUntil close allowNl rest).map (fun p => (c :: p.1, p.2))

/-- `re.search` of `open(.*?)close`: leftmost opening tag whose lazy
content reaches a closing tag. -/
def tagSearch (openTag close : List Char) (allowNl : Bool) : List Char → Option (List Char)
  | [] => none
  | c :: rest =>
    match litStrip openTag (c :: rest) with
    | some r1 =>
      match lazyUntil close allowNl r1 with
      | some p => some p.1
      | none => tagSearch openTag close allowNl rest
    | none => tagSearch openTag close allowNl rest

/-- `_SUMMARY_RE.search` (with `re.DOTALL`). -/
def summarySearch (cs : List Char) : Option (List Char) :=
  tagSearch "<summary>".data "</summary>".data true cs

/-- `_SEE_CREF_RE` at the head: returns the replacement (the last
dot-segment of the cref) and the remainder after the match. -/
def seeCrefAt (s : List Char) : Option (List Char × List Char) :=
  (litStrip "<see".data s).bind (fun r1 =>
    (eatRun pyIsSpace r1).bind (fun r2 =>
      (litStrip "cref=".data r2).bind (fun r3 =>
        match r3 with
        | q0 :: r4 =>
          if q0 = '"' || q0 = '\'' then
            let content := r4.takeWhile (fun c => c ≠ '"' && c ≠ '\'')
            if content.isEmpty then none
            else
              match r4.dropWhile (fun c => c ≠ '"' && c ≠ '\'') with
              | q1 :: r5 =>
                if q1 = '"' || q1 = '\'' then
                  match litStrip "/>".data (r5.dropWhile pyIsSpace) with
                  | some r6 => some ((splitDots content).getLastD [], r6)
                  | none => none
                else none
              | [] => none
          else none
        | [] => none)))

/-- `_SEE_CREF_RE.sub` (fuelled leftmost non-overlapping substitution). -/
def seeCrefSubF : Nat → List Char → List Char
  | 0, cs => cs
  | _, [] => []
  | fuel + 1, c :: rest =>
    match seeCrefAt (c :: rest) with
    | some (rep, after) => rep ++ seeCrefSubF fuel after
    | none => c :: seeCrefSubF fuel rest

/-- `_XML_TAG_RE` (`<[^>]+>`) at the head: the remainder after the tag. -/
def xmlTagAt (s : List Char) : Option (List Char) :=
  match s with
  | '<' :: r1 =>
    let content := r1.takeWhile (fun c => c ≠ '>')
    if content.isEmpty then none
    else
      match r1.dropWhile (fun c => c ≠ '>') with
      | '>' :: r2 => some r2
      | _ => none
  | _ => none

/-- `_XML_TAG_RE.sub("", ...)` (fuelled). -/
def tagStripF : Nat → List Char → List Char
  | 0, cs => cs
  | _, [] => []
  | fuel + 1, c :: rest =>
    match xmlTagAt (c :: rest) with
    | some after => tagStripF fuel after
    | none => c :: tagStripF fuel rest

/-- `re.sub(r"\s+", " ", ...)`: collapse whitespace runs to one space. -/
def wsCollapseGo (prevSpace : Bool) : List Char → List Char
  | [] => []
  | c :: rest =>
    if pyIsSpace c then
      if prevSpace then wsCollapseGo true rest
      else ' ' :: wsCollapseGo true rest
    else c :: wsCollapseGo false rest

/-- `_clean_xml_text`: see-cref replacement, tag stripping, whitespace
normalization, strip. -/
def cleanXmlText (s : String) : String :=
  let p1 := seeCrefSubF (s.data.length + 1) s.data
  let p2 := tagStripF (p1.length + 1) p1
  ⟨pyStripList (wsCollapseGo false p2)⟩

/-- `_PARAM_RE` at the head: the parsed param and the remainder after the
match. -/
def paramAt (s : List Char) : Option (Param × List Char) :=
  (litStrip "<param".data s).bind (fun r1 =>
    (eatRun pyIsSpace r1).bind (fun r2 =>
      (litStrip "name=".data r2).bind (fun r3 =>
        match r3 with
        | q0 :: r4 =>
          if q0 = '"' || q0 = '\'' then
            (eatName r4).bind (fun nr =>
              match nr.2 with
              | q1 :: r5 =>
                if q1 = '"' || q1 = '\'' then
                  (litStrip ">".data r5).bind (fun r6 =>
                    (lazyUntil "</param>".data false r6).map (fun p =>
                      ((⟨⟨nr.1⟩, cleanXmlText ⟨p.1⟩⟩ : Param), p.2)))
                else none
              | [] => none)
          else none
        | [] => none)))

/-- `_PARAM_RE.finditer` (fuelled scan, resuming after each match). -/
def paramsScanF : Nat → List Char → List Param
  | 0, _ => []
  | _, [] => []
  | fuel + 1, c :: rest =>
    match paramAt (c :: rest) with
    | some (p, after) => p :: paramsScanF fuel after
    | none => paramsScanF fuel rest

/-- All `<param>` entries of a doc block. -/
def paramsScan (cs : List Char) : List Param := paramsScanF (cs.length + 1) cs

/-- `_RETURNS_RE.search` result, cleaned (`""` when absent). -/
def returnsOf (cs : List Char) : String :=
  match tagSearch "<returns>".data "</returns>".data false cs with
  | some g => cleanXmlText ⟨g⟩
  | none => ""

/-- The summary a declaration's doc text yields
(`_clean_xml_text(summary_match.group(1).strip() if summary_match else
doc_text)`). -/
def csSummaryOf (doc_text : String) : String :=
  cleanXmlText (match summarySearch doc_text.data with
    | some g => pyStrip ⟨g⟩
    | none => doc_text)

/-- Member fqn: `namespace.class.member`, omitting an empty namespace. -/
def memberFqn (ns cls nm : String) : String :=
  if ns ≠ "" then ns ++ "." ++ cls ++ "." ++ nm else cls ++ "." ++ nm

/-- `_parse_declaration`: reject short summaries, then classify the
declaration line type > event > method > property > field, with the
accessor-keyword and reserved-keyword rejections of the source. -/
def parseDeclaration (decl_line doc_text nspace class_name : String) :
    Option ApiRecord :=
  let summary := csSummaryOf doc_text
  if summary = "" ∨ summary.length < 3 then none
  else
    let params := paramsScan doc_text.data
    let returns_text := returnsOf doc_text.data
    let deprecated := depMatch summary
    let hint := if deprecated then depHint summary else ""
    match clsMatch decl_line with
    | some cname =>
      some ⟨if nspace ≠ "" then nspace ++ "." ++ cname else cname, nspace, cname, "",
        "type", summary, params, returns_text, deprecated, hint⟩
    | none =>
      if class_name = "" then none
      else
        match eventMatch decl_line with
        | some nm =>
          some ⟨memberFqn nspace class_name nm, nspace, class_name, nm, "event",
            summary, params, returns_text, deprecated, hint⟩
        | none =>
          match methodMatch decl_line with
          | some nm =>
            if nm = "get" ∨ nm = "set" ∨ nm = "add" ∨ nm = "remove" then none
            else
              some ⟨memberFqn nspace class_name nm, nspace, class_name, nm, "method",
                summary, params, returns_text, deprecated, hint⟩
          | none =>
            match propMatch decl_line with
            | some nm =>
              if nm = "class" ∨ nm = "struct" ∨ nm = "interface" ∨ nm = "enum" ∨
                  nm = "namespace" ∨ nm = "if" ∨ nm = "else" ∨ nm = "for" ∨
                  nm = "while" ∨ nm = "switch" ∨ nm = "try" ∨ nm = "catch" then none
              else
                some ⟨memberFqn nspace class_name nm, nspace, class_name, nm,
                  "property", summary, params, returns_text, deprecated, hint⟩
            | none =>
              match fieldMatch decl_line with
              | some nm =>
                some ⟨memberFqn nspace class_name nm, nspace, class_name, nm, "field",
                  summary, params, returns_text, deprecated, hint⟩
              | none => none

/-- `_is_doc_comment`. -/
def isDocLine (l : String) : Bool :=
  (litStrip "///".data (pyStripList l.data)).isSome

/-- `_DOC_COMMENT_LINE` group 1 (`^\s*///\s?(.*)`). -/
def docLineContent (l : String) : Option String :=
  match litStrip "///".data (l.data.dropWhile pyIsSpace) with
  | none => none
  | some r =>
    match r with
    | c :: rest => if pyIsSpace c then some (⟨rest⟩ : String) else some (⟨r⟩ : String)
    | [] => some ""

/-- The doc text of a comment run (newline-joined group-1 contents). -/
def docText (run : List String) : String :=
  String.intercalate "\n" (run.filterMap docLineContent)

/-- The `doc_block` summary `_extract_doc_block` returns for the comment
run immediately above a declaration (empty when there is no run). -/
def docBlockOf (run : List String) : String :=
  if run.filterMap docLineContent = [] then ""
  else
    let dt := docText run
    match summarySearch dt.data with
    | some g => pyStrip (⟨g⟩ : String)
    | none => dt

/-- The type record the class-tracking branch of `_parse_cs_file` emits. -/
def classBranchRecord (ns cname db : String) : ApiRecord :=
  let summary := cleanXmlText db
  let deprecated := depMatch summary
  ⟨if ns ≠ "" then ns ++ "." ++ cname else cname, ns, cname, "", "type", summary,
    [], "", deprecated, if deprecated then depHint summary else ""⟩

/-- The scan loop of `_parse_cs_file`, fuelled (the fuel strictly dominates
the number of remaining lines, so the out-of-fuel branch is never reached
from `parseCsLines`).  `pending` carries the contents of the doc-comment
run immediately preceding the current head line — exactly what the
backward scan of `_extract_doc_block` would collect, since such a run is
maximal; on every path whose previous line is not a doc comment it is
empty.  A line matching `_CLASS_RE` cannot itself be a doc comment (its
first non-space character is a keyword letter, not `/`), so the source's
`not _is_doc_comment(line)` guard on the class branch is vacuous. -/
def scanCsF : Nat → List String → List String → String → List String → List ApiRecord
  | 0, _, _, _, _ => []
  | fuel + 1, pending, lines, ns, stack =>
    match lines with
    | [] => []
    | l :: rest =>
      match nsMatch l with
      | some n => scanCsF fuel [] rest n stack
      | none =>
        match clsMatch l with
        | some cname =>
          let db := docBlockOf pending
          (if db ≠ "" then [classBranchRecord ns cname db] else []) ++
            scanCsF fuel [] rest ns (cname :: stack)
        | none =>
          if isDocLine l then
            let run := l :: rest.takeWhile isDocLine
            let rest2 := rest.dropWhile isDocLine
            match rest2 with
            | [] => []
            | decl :: _ =>
              (parseDeclaration decl (docText run) ns (stack.headD "")).toList ++
                scanCsF fuel run rest2 ns stack
          else scanCsF fuel [] rest ns stack

/-- `_parse_cs_file` on the split lines of a file. -/
def parseCsLines (lines : List String) : List ApiRecord :=
  scanCsF (lines.length + 1) [] lines "" []

/-! ## XML doc parser (`xml_parser.py`)

`lxml` element trees are modelled as trees with tag, attributes, text,
children and tail; `iter` is a pre-order traversal, `itertext` the usual
fragment sequence. -/

/-- An element tree node. -/
inductive Xml where
  | el (tag : String) (attrs : List (String × String)) (text : Option String)
      (children : List Xml) (tail : Option String)

/-- Element tag. -/
def xmlTag : Xml → String
  | .el t _ _ _ _ => t

/-- Element children. -/
def xmlChildren : Xml → List Xml
  | .el _ _ _ cs _ => cs

/-- `element.get(key, default)`. -/
def xmlGet (x : Xml) (k d : String) : String :=
  match x with
  | .el _ attrs _ _ _ => ((attrs.find? (fun p => p.1 = k)).map (fun p => p.2)).getD d

mutual
/-- `element.iter(tag)`: pre-order traversal, the element itself
included. -/
def xmlIter (tag : String) : Xml → List Xml
  | .el t a tx cs tl => (if t = tag then [Xml.el t a tx cs tl] else []) ++ xmlIterL tag cs
/-- Traversal over a child list. -/
def xmlIterL (tag : String) : List Xml → List Xml
  | [] => []
  | x :: xs => xmlIter tag x ++ xmlIterL tag xs
end

mutual
/-- `element.itertext()`: the element's text, then each child's itertext
followed by its tail. -/
def iterTextEl : Xml → List String
  | .el _ _ tx cs _ => (match tx with | some t => [t] | none => []) ++ iterTextL cs
/-- Fragment sequence of a child list. -/
def iterTextL : List Xml → List String
  | [] => []
  | x :: xs =>
    iterTextEl x ++
      (match x with
       | .el _ _ _ _ (some tl) => [tl]
       | .el _ _ _ _ none => []) ++ iterTextL xs
end

/-- `xml_parser._extract_text`: join all fragments with spaces, collapse
whitespace, strip; `""` for a missing element. -/
def extractText : Option Xml → String
  | none => ""
  | some e => ⟨pyStripList (wsCollapseGo false (String.intercalate " " (iterTextEl e)).data)⟩

/-- `element.find(tag)`: first direct child with the tag. -/
def xmlFind (x : Xml) (tag : String) : Option Xml :=
  (xmlChildren x).find? (fun c => xmlTag c = tag)

/-- `element.findall(tag)`: all direct children with the tag. -/
def xmlFindAll (x : Xml) (tag : String) : List Xml :=
  (xmlChildren x).filter (fun c => xmlTag c = tag)

/-- `_PREFIX_MAP`. -/
def prefixTypeMap (p : String) : Option String :=
  if p = "T:" then some "type"
  else if p = "M:" then some "method"
  else if p = "P:" then some "property"
  else if p = "F:" then some "field"
  else if p = "E:" then some "event"
  else none

/-- One `<member>` entry of `parse_xml`: name-attribute checks, prefix
mapping, text extraction, fqn splitting, deprecation detection. -/
def memberToRec (m : Xml) : Option ApiRecord :=
  let nameAttr := xmlGet m "name" ""
  if nameAttr = "" ∨ nameAttr.length < 3 ∨ nameAttr.data.get? 1 ≠ some ':' then none
  else
    match prefixTypeMap ⟨nameAttr.data.take 2⟩ with
    | none => none
    | some mt =>
      let fqn : String := ⟨nameAttr.data.drop 2⟩
      let summary := extractText (xmlFind m "summary")
      let params := (xmlFindAll m "param").map (fun p =>
        (⟨xmlGet p "name" "", extractText (some p)⟩ : Param))
      let returns_text := extractText (xmlFind m "returns")
      let nc := splitFqn fqn mt
      let deprecated := if summary ≠ "" then depMatch summary else false
      let hint := if deprecated = true ∧ summary ≠ "" then depHint summary else ""
      some ⟨fqn, nc.1, nc.2.1, nc.2.2, mt, summary, params, returns_text,
        deprecated, hint⟩

/-- `parse_xml` on a parsed tree: every `<member>` descendant, in document
order, through `memberToRec`. -/
def parseXmlRecords (root : Xml) : List ApiRecord :=
  (xmlIter "member" root).filterMap memberToRec

/-! ### The hint/deprecated invariant (C10) -/

/-- A non-empty hint only on deprecated records; no hint on
non-deprecated ones. -/
def hintInv (r : ApiRecord) : Prop :=
  (r.deprecation_hint ≠ "" → r.deprecated = true) ∧
  (r.deprecated = false → r.deprecation_hint = "")

/-! ## Theorems -/

theorem splitDots_ne_nil (cs : List Char) : splitDots cs ≠ [] := by
  cases cs with
  | nil => simp [splitDots]
  | cons c cs =>
    simp only [splitDots]
    cases h : splitDots cs with
    | nil => simp
    | cons s rest =>
      by_cases hc : c = '.' <;> simp [hc]

theorem joinDots_splitDots (cs : List Char) : joinDots (splitDots cs) = cs := by
  induction cs with
  | nil => rfl
  | cons c cs ih =>
    simp only [splitDots]
    cases h : splitDots cs with
    | nil => exact absurd h (splitDots_ne_nil cs)
    | cons s rest =>
      rw [h] at ih
      by_cases hc : c = '.'
      · subst hc
        simpa [joinDots] using ih
      · cases rest with
        | nil => simpa [joinDots, hc] using ih
        | cons t ts => simpa [joinDots, hc] using ih

theorem splitDots_dot_free (cs : List Char) :
    ∀ seg ∈ splitDots cs, '.' ∉ seg := by
  induction cs with
  | nil => intro seg hseg; simp [splitDots] at hseg; simp [hseg]
  | cons c cs ih =>
    intro seg hseg
    simp only [splitDots] at hseg
    cases h : splitDots cs with
    | nil => exact absurd h (splitDots_ne_nil cs)
    | cons s rest =>
      rw [h] at hseg
      by_cases hc : c = '.'
      · simp [hc] at hseg
        rcases hseg with hseg | hseg | hseg
        · simp [hseg]
        · exact ih seg (by rw [h, hseg]; exact List.mem_cons_self _ _)
        · exact ih seg (by rw [h]; exact List.mem_cons_of_mem _ hseg)
      · simp [hc] at hseg
        rcases hseg with hseg | hseg
        · subst hseg
          intro hmem
          rcases List.mem_cons.mp hmem with h1 | h1
          · exact hc h1.symm
          · exact ih s (by rw [h]; exact List.mem_cons_self _ _) h1
        · exact ih seg (by rw [h]; exact List.mem_cons_of_mem _ hseg)

theorem joinDots_append_last (xs : List (List Char)) (a : List Char) (hxs : xs ≠ []) :
    joinDots (xs ++ [a]) = joinDots xs ++ '.' :: a := by
  induction xs with
  | nil => exact absurd rfl hxs
  | cons x xs ih =>
    cases xs with
    | nil => simp [joinDots]
    | cons y ys =>
      have h2 := ih (by simp)
      simp only [List.cons_append] at h2 ⊢
      simp only [joinDots]
      rcases h3 : ys ++ [a] with _ | ⟨z, zs⟩
      · exact absurd h3 (by simp)
      · rw [h3] at h2
        rw [h2]
        simp

theorem getLastD_eq_getLast {α : Type} (l : List α) (d : α) (h : l ≠ []) :
    l.getLastD d = l.getLast h := by
  simp [List.getLastD_eq_getLast?, List.getLast?_eq_getLast _ h]

theorem dropLast_append_getLastD {α : Type} (l : List α) (d : α) (h : l ≠ []) :
    l.dropLast ++ [l.getLastD d] = l := by
  rw [getLastD_eq_getLast l d h]
  exact List.dropLast_append_getLast h

theorem getLastD_mem {α : Type} (l : List α) (d : α) (h : l ≠ []) :
    l.getLastD d ∈ l := by
  rw [getLastD_eq_getLast l d h]
  exact List.getLast_mem h

theorem fqnSegs_ne_nil (fqn : String) : fqnSegs fqn ≠ [] := splitDots_ne_nil _

theorem joinDots_fqnSegs (fqn : String) :
    joinDots (fqnSegs fqn) = stripParen fqn.data := joinDots_splitDots _

theorem fqnSegs_dot_free (fqn : String) : ∀ seg ∈ fqnSegs fqn, '.' ∉ seg :=
  splitDots_dot_free _

theorem splitFqn_type_big (fqn : String) (h2 : 2 ≤ (fqnSegs fqn).length) :
    splitFqn fqn "type" =
      (⟨joinDots (fqnSegs fqn).dropLast⟩, ⟨(fqnSegs fqn).getLastD []⟩, "") := by
  simp [splitFqn, h2]

theorem splitFqn_type_one (fqn : String) (h1 : (fqnSegs fqn).length = 1) :
    splitFqn fqn "type" = ("", ⟨(fqnSegs fqn).headD []⟩, "") := by
  have h : ¬ 2 ≤ (fqnSegs fqn).length := by omega
  simp [splitFqn, h]

theorem splitFqn_mem_big (fqn mt : String) (hmt : mt ≠ "type")
    (h3 : 3 ≤ (fqnSegs fqn).length) :
    splitFqn fqn mt = (⟨joinDots (fqnSegs fqn).dropLast.dropLast⟩,
      ⟨(fqnSegs fqn).dropLast.getLastD []⟩, ⟨(fqnSegs fqn).getLastD []⟩) := by
  simp [splitFqn, hmt, h3]

theorem splitFqn_mem_two (fqn mt : String) (hmt : mt ≠ "type")
    (h2 : (fqnSegs fqn).length = 2) :
    splitFqn fqn mt = ("", ⟨(fqnSegs fqn).headD []⟩, ⟨(fqnSegs fqn).getLastD []⟩) := by
  have h : ¬ 3 ≤ (fqnSegs fqn).length := by omega
  simp [splitFqn, hmt, h, h2]

theorem splitFqn_mem_one (fqn mt : String) (hmt : mt ≠ "type")
    (h1 : (fqnSegs fqn).length = 1) :
    splitFqn fqn mt = ("", "", ⟨(fqnSegs fqn).headD []⟩) := by
  have h3 : ¬ 3 ≤ (fqnSegs fqn).length := by omega
  have h2 : ¬ (fqnSegs fqn).length = 2 := by omega
  simp [splitFqn, hmt, h3, h2]

/-- C4.  The `_split_fqn` splitting discipline.  Writing `ps` for the
dot-segments of the parameter-stripped name (`fqnSegs fqn`):
for `member_type = "type"`, `member_name` is empty, `class_name` is the last
segment (hence contains no dot) and `namespace` is everything before it —
empty when there is a single segment, and otherwise rebuilding
`namespace ++ "." ++ class_name` recovers the stripped name.  For member
records: with at least three segments the last is `member_name`, the
second-last `class_name`, the rest (joined by dots) `namespace`, and the
three parts rebuild the stripped name; with two segments `class_name` and
`member_name` are the two segments and `namespace` is empty; with one
segment only `member_name` is set, to the whole stripped name. -/
theorem xml_split_fqn_cases (fqn mt : String) :
    (mt = "type" →
      (splitFqn fqn mt).2.2 = "" ∧
      (splitFqn fqn mt).2.1.data = (fqnSegs fqn).getLastD [] ∧
      '.' ∉ (splitFqn fqn mt).2.1.data ∧
      (2 ≤ (fqnSegs fqn).length →
        (splitFqn fqn mt).1.data ++ '.' :: (splitFqn fqn mt).2.1.data = stripParen fqn.data) ∧
      ((fqnSegs fqn).length = 1 →
        (splitFqn fqn mt).1 = "" ∧ (splitFqn fqn mt).2.1.data = stripParen fqn.data)) ∧
    (mt ≠ "type" → 3 ≤ (fqnSegs fqn).length →
      (splitFqn fqn mt).2.2.data = (fqnSegs fqn).getLastD [] ∧
      (splitFqn fqn mt).2.1.data = (fqnSegs fqn).dropLast.getLastD [] ∧
      '.' ∉ (splitFqn fqn mt).2.2.data ∧ '.' ∉ (splitFqn fqn mt).2.1.data ∧
      ((splitFqn fqn mt).1.data ++ '.' :: (splitFqn fqn mt).2.1.data) ++
          '.' :: (splitFqn fqn mt).2.2.data = stripParen fqn.data) ∧
    (mt ≠ "type" → (fqnSegs fqn).length = 2 →
      (splitFqn fqn mt).1 = "" ∧
      (splitFqn fqn mt).2.1.data = (fqnSegs fqn).headD [] ∧
      (splitFqn fqn mt).2.2.data = (fqnSegs fqn).getLastD [] ∧
      (splitFqn fqn mt).2.1.data ++ '.' :: (splitFqn fqn mt).2.2.data = stripParen fqn.data) ∧
    (mt ≠ "type" → (fqnSegs fqn).length = 1 →
      (splitFqn fqn mt).1 = "" ∧ (splitFqn fqn mt).2.1 = "" ∧
      (splitFqn fqn mt).2.2.data = stripParen fqn.data) := by
  have hne := fqnSegs_ne_nil fqn
  have hjoin := joinDots_fqnSegs fqn
  have hpos : 1 ≤ (fqnSegs fqn).length := List.length_pos.mpr hne
  refine ⟨?_, ?_, ?_, ?_⟩
  · intro hmt
    subst hmt
    by_cases h2 : 2 ≤ (fqnSegs fqn).length
    · rw [splitFqn_type_big fqn h2]
      have hdl_ne : (fqnSegs fqn).dropLast ≠ [] := by
        intro hd
        have := congrArg List.length hd
        simp [List.length_dropLast] at this
        omega
      refine ⟨rfl, rfl, ?_, ?_, ?_⟩
      · exact fqnSegs_dot_free fqn _ (getLastD_mem _ _ hne)
      · intro _
        show joinDots (fqnSegs fqn).dropLast ++ '.' :: (fqnSegs fqn).getLastD [] =
          stripParen fqn.data
        rw [← joinDots_append_last _ _ hdl_ne, dropLast_append_getLastD _ _ hne, hjoin]
      · intro h1
        omega
    · have h1 : (fqnSegs fqn).length = 1 := by omega
      rw [splitFqn_type_one fqn h1]
      obtain ⟨x, hx⟩ := List.length_eq_one.mp h1
      refine ⟨rfl, by simp [hx], ?_, by omega, ?_⟩
      · show '.' ∉ (fqnSegs fqn).headD []
        exact fqnSegs_dot_free fqn _ (by simp [hx])
      · intro _
        refine ⟨rfl, ?_⟩
        show ((fqnSegs fqn).headD []) = stripParen fqn.data
        rw [hx] at hjoin ⊢
        simpa [joinDots] using hjoin
  · intro hmt h3
    rw [splitFqn_mem_big fqn mt hmt h3]
    have hdl_ne : (fqnSegs fqn).dropLast ≠ [] := by
      intro hd
      have := congrArg List.length hd
      simp [List.length_dropLast] at this
      omega
    have hdl2_ne : (fqnSegs fqn).dropLast.dropLast ≠ [] := by
      intro hd
      have := congrArg List.length hd
      simp [List.length_dropLast] at this
      omega
    refine ⟨rfl, rfl, ?_, ?_, ?_⟩
    · exact fqnSegs_dot_free fqn _ (getLastD_mem _ _ hne)
    · exact fqnSegs_dot_free fqn _ (List.dropLast_subset _ (getLastD_mem _ _ hdl_ne))
    · show (joinDots (fqnSegs fqn).dropLast.dropLast ++
          '.' :: (fqnSegs fqn).dropLast.getLastD []) ++
          '.' :: (fqnSegs fqn).getLastD [] = stripParen fqn.data
      rw [← joinDots_append_last _ _ hdl2_ne, dropLast_append_getLastD _ _ hdl_ne,
        ← joinDots_append_last _ _ hdl_ne, dropLast_append_getLastD _ _ hne, hjoin]
  · intro hmt h2
    rw [splitFqn_mem_two fqn mt hmt h2]
    obtain ⟨a, b, hab⟩ := List.length_eq_two.mp h2
    rw [hab] at hjoin
    refine ⟨rfl, rfl, rfl, ?_⟩
    show ((fqnSegs fqn).headD []) ++ '.' :: ((fqnSegs fqn).getLastD []) = stripParen fqn.data
    rw [hab]
    simpa [joinDots] using hjoin
  · intro hmt h1
    rw [splitFqn_mem_one fqn mt hmt h1]
    obtain ⟨x, hx⟩ := List.length_eq_one.mp h1
    rw [hx] at hjoin
    refine ⟨rfl, rfl, ?_⟩
    show ((fqnSegs fqn).headD []) = stripParen fqn.data
    rw [hx]
    simpa [joinDots] using hjoin

/-- C4 witness: the two concrete examples of the specification, together
with the rebuilt stripped name for the method example, obtained from
`xml_split_fqn_cases`. -/
theorem xml_split_fqn_cases_witness :
    ((splitFqn "UnityEngine.Physics.Raycast" "method").1.data ++
        '.' :: (splitFqn "UnityEngine.Physics.Raycast" "method").2.1.data) ++
      '.' :: (splitFqn "UnityEngine.Physics.Raycast" "method").2.2.data =
        stripParen "UnityEngine.Physics.Raycast".data ∧
    splitFqn "UnityEngine.Physics.Raycast" "method" = ("UnityEngine", "Physics", "Raycast") ∧
    splitFqn "UnityEngine.GameObject" "type" = ("UnityEngine", "GameObject", "") := by
  refine ⟨?_, by decide, by decide⟩
  exact ((xml_split_fqn_cases "UnityEngine.Physics.Raycast" "method").2.1
    (by decide) (by decide)).2.2.2.2

theorem takeWhile_append_of_all {α : Type} (p : α → Bool) (l1 l2 : List α)
    (h : ∀ a ∈ l1, p a) : (l1 ++ l2).takeWhile p = l1 ++ l2.takeWhile p := by
  induction l1 with
  | nil => simp
  | cons a t ih =>
    have ha : p a := h a (by simp)
    simp only [List.cons_append, List.takeWhile_cons, ha]
    rw [ih (fun b hb => h b (by simp [hb]))]
    simp

/-- C5 counterexample: a type fqn carrying a nested-type marker (`+`) or a
generic-arity marker yields a `class_name` that still contains the marker
text — `_split_fqn` strips only the parameter list, not those markers. -/
theorem xml_marker_kept_counterexample :
    (splitFqn "UnityEngine.Outer+Inner" "type").2.1 = "Outer+Inner" ∧
    '+' ∈ (splitFqn "UnityEngine.Outer+Inner" "type").2.1.data ∧
    (splitFqn "UnityEngine.List`1" "type").2.1 = "List`1" := by decide

/-- C5 amended: before splitting, only the parameter list (everything from
the first `(`) is stripped from the name remainder; generic-arity and
nested-type markers are retained, so a type name carrying such a marker
yields a `class_name` containing the marker text. -/
theorem xml_strip_params_only (s t mt : String) (h : '(' ∉ s.data) :
    splitFqn (s ++ "(" ++ t) mt = splitFqn s mt ∧
    splitFqn "UnityEngine.Outer+Inner" "type" = ("UnityEngine", "Outer+Inner", "") := by
  have hall : ∀ a ∈ s.data, (fun c => decide (c ≠ '(')) a = true := by
    intro a ha
    simp only [decide_eq_true_eq]
    intro hEq
    exact h (hEq ▸ ha)
  have hsegs : fqnSegs (s ++ "(" ++ t) = fqnSegs s := by
    have hdata : (s ++ "(" ++ t).data = s.data ++ '(' :: t.data := by
      simp [String.data_append]
    have hstop : stripParen ('(' :: t.data) = [] := by
      simp [stripParen]
    have hself : stripParen s.data = s.data := List.takeWhile_eq_self_iff.mpr hall
    unfold fqnSegs
    rw [hdata]
    rw [show stripParen (s.data ++ '(' :: t.data) = s.data ++ stripParen ('(' :: t.data) from
      takeWhile_append_of_all _ _ _ hall]
    rw [hstop, List.append_nil, hself]
  constructor
  · simp only [splitFqn, hsegs]
  · decide

/-- C5 witness: stripping the parameter list of a concrete method fqn before
splitting, via `xml_strip_params_only`. -/
theorem xml_strip_params_only_witness :
    '(' ∉ ("N.C.M" : String).data ∧
    splitFqn ("N.C.M" ++ "(" ++ "System.Int32)") "method" = splitFqn "N.C.M" "method" :=
  ⟨by decide, (xml_strip_params_only "N.C.M" "System.Int32)" "method" (by decide)).1⟩

theorem likeF_pct_nil (s : List Char) :
    ∀ fuel : Nat, 1 + s.length < fuel → likeF fuel ['%'] s = true := by
  induction s with
  | nil =>
    intro fuel h
    rcases fuel with _ | _ | m
    · simp at h
    · simp at h
    · simp [likeF]
  | cons c s2 ih =>
    intro fuel h
    rcases fuel with _ | n
    · simp at h
    · have h2 := ih n (by simp at h ⊢; omega)
      simp [likeF, h2]

theorem likeF_trailing_pct (ps : List Char) (hp : '%' ∉ ps) (hu : '_' ∉ ps) :
    ∀ (s : List Char) (fuel : Nat), ps.length + 1 + s.length < fuel →
      (likeF fuel (ps ++ ['%']) s = true ↔ ps.map lowerChar <+: s.map lowerChar) := by
  induction ps with
  | nil =>
    intro s fuel h
    simp only [List.nil_append, List.map_nil]
    rw [likeF_pct_nil s fuel (by simpa using h)]
    simp
  | cons p ps ih =>
    intro s fuel h
    have hp2 : '%' ∉ ps := fun hx => hp (List.mem_cons_of_mem _ hx)
    have hu2 : '_' ∉ ps := fun hx => hu (List.mem_cons_of_mem _ hx)
    have hpne : p ≠ '%' := fun hx => hp (hx ▸ List.mem_cons_self _ _)
    have hune : p ≠ '_' := fun hx => hu (hx ▸ List.mem_cons_self _ _)
    rcases fuel with _ | n
    · simp at h
    · cases s with
      | nil =>
        simp [likeF, hpne, hune]
      | cons c s2 =>
        simp only [List.cons_append, List.map_cons]
        rw [show likeF (n + 1) (p :: (ps ++ ['%'])) (c :: s2) =
              (eqCI p c && likeF n (ps ++ ['%']) s2) by
            simp [likeF, hpne, hune]]
        rw [List.cons_prefix_cons]
        simp only [Bool.and_eq_true]
        rw [ih hp2 hu2 s2 n (by simp at h ⊢; omega)]
        constructor
        · rintro ⟨h1, h2⟩
          exact ⟨by simpa [eqCI] using h1, h2⟩
        · rintro ⟨h1, h2⟩
          exact ⟨by simpa [eqCI] using h1, h2⟩

/-- Characterization of `LIKE` with a wildcard-free pattern followed by a
single trailing `%`: it holds exactly when the pattern is an
ASCII-case-insensitive prefix of the candidate. -/
theorem likeM_trailing_pct (ps : List Char) (hp : '%' ∉ ps) (hu : '_' ∉ ps)
    (s : List Char) :
    (likeM (ps ++ ['%']) s = true ↔ ps.map lowerChar <+: s.map lowerChar) := by
  unfold likeM
  exact likeF_trailing_pct ps hp hu s _
    (by simp only [List.length_append, List.length_cons, List.length_nil]; omega)

/-- C2 (code bug): the `bm25` weight tuple the code passes gives the
`summary` column weight 0.5, not the weight 1 that both the specification
and the code's own comment (`fqn/summary (1x)`) state; the other three
weights are as documented. -/
theorem search_bm25_summary_weight_bug :
    searchBm25Weights.member_name = 10 ∧ searchBm25Weights.class_name = 5 ∧
    searchBm25Weights.fqn = 1 ∧ searchBm25Weights.summary = 1/2 ∧
    searchBm25Weights.summary ≠ 1 := by
  norm_num [searchBm25Weights]

/-- C3 counterexample: `UnityEngine.Rendering.Universal` is a deeper
descendant (three dot-segments, so not a direct sub-namespace of
`UnityEngine`), yet its namespace-root bonus is `-1.0`, not the `0` the
claim assigns to such namespaces. -/
theorem namespace_bonus_counterexample :
    nsBonus "UnityEngine.Rendering.Universal" = -1.0 ∧
    (splitDots "UnityEngine.Rendering.Universal".data).length = 3 ∧
    ((-1.0 : ℚ) ≠ 0) := by
  refine ⟨?_, by decide, by norm_num⟩
  unfold nsBonus
  rw [if_neg (by decide), if_pos (by decide)]

/-- C3 amended: the namespace-root bonus is `-2.0` exactly for the two
canonical top-level namespaces, `-1.0` for every namespace extending a
canonical root with a dot — descendants at any depth, compared
ASCII-case-insensitively as SQL `LIKE` does — and `0` otherwise. -/
theorem namespace_bonus_cases (ns : String) :
    (ns = "UnityEngine" ∨ ns = "UnityEditor" → nsBonus ns = -2.0) ∧
    (¬(ns = "UnityEngine" ∨ ns = "UnityEditor") →
      ("UnityEngine.".data.map lowerChar <+: ns.data.map lowerChar ∨
       "UnityEditor.".data.map lowerChar <+: ns.data.map lowerChar) →
      nsBonus ns = -1.0) ∧
    (¬(ns = "UnityEngine" ∨ ns = "UnityEditor") →
      ¬("UnityEngine.".data.map lowerChar <+: ns.data.map lowerChar ∨
        "UnityEditor.".data.map lowerChar <+: ns.data.map lowerChar) →
      nsBonus ns = 0) := by
  have hEng : ∀ s : List Char, likeM ("UnityEngine.%".data) s = true ↔
      "UnityEngine.".data.map lowerChar <+: s.map lowerChar := by
    intro s
    exact likeM_trailing_pct ("UnityEngine.".data) (by decide) (by decide) s
  have hEd : ∀ s : List Char, likeM ("UnityEditor.%".data) s = true ↔
      "UnityEditor.".data.map lowerChar <+: s.map lowerChar := by
    intro s
    exact likeM_trailing_pct ("UnityEditor.".data) (by decide) (by decide) s
  refine ⟨?_, ?_, ?_⟩
  · intro h
    unfold nsBonus
    rw [if_pos h]
  · intro h1 h2
    have hb : (likeMatch "UnityEngine.%" ns || likeMatch "UnityEditor.%" ns) = true := by
      rcases h2 with h2 | h2
      · have h3 : likeMatch "UnityEngine.%" ns = true := (hEng ns.data).mpr h2
        simp [h3]
      · have h3 : likeMatch "UnityEditor.%" ns = true := (hEd ns.data).mpr h2
        simp [h3]
    unfold nsBonus
    rw [if_neg h1, if_pos hb]
  · intro h1 h2
    have hb : ¬ ((likeMatch "UnityEngine.%" ns || likeMatch "UnityEditor.%" ns) = true) := by
      simp only [Bool.or_eq_true]
      rintro (h3 | h3)
      · exact h2 (Or.inl ((hEng ns.data).mp h3))
      · exact h2 (Or.inr ((hEd ns.data).mp h3))
    unfold nsBonus
    rw [if_neg h1, if_neg hb]
    norm_num

/-- C3 witness: the three regimes of `namespace_bonus_cases` at concrete
namespaces, including a deep descendant receiving `-1.0`. -/
theorem namespace_bonus_cases_witness :
    nsBonus "UnityEngine" = -2.0 ∧ nsBonus "UnityEditor.Animations" = -1.0 ∧
    nsBonus "UnityEngine.Rendering.Universal.Internal" = -1.0 ∧
    nsBonus "System.Collections" = 0 :=
  ⟨(namespace_bonus_cases "UnityEngine").1 (Or.inl rfl),
   (namespace_bonus_cases "UnityEditor.Animations").2.1 (by decide) (Or.inr (by decide)),
   (namespace_bonus_cases "UnityEngine.Rendering.Universal.Internal").2.1 (by decide)
     (Or.inl (by decide)),
   (namespace_bonus_cases "System.Collections").2.2 (by decide) (by decide)⟩

/-! ### Characterizing the deprecation scans -/

theorem ciStrip_iff (w : List Char) : ∀ (s r : List Char),
    (ciStrip w s = some r ↔ ∃ mid, s = mid ++ r ∧ mid.map lowerChar = w.map lowerChar) := by
  induction w with
  | nil =>
    intro s r
    constructor
    · intro h
      simp [ciStrip] at h
      exact ⟨[], by simp [h], by simp⟩
    · rintro ⟨mid, h1, h2⟩
      have hmid : mid = [] := by simpa using h2
      subst hmid
      simpa [ciStrip] using h1
  | cons p ps ih =>
    intro s r
    cases s with
    | nil =>
      constructor
      · intro h
        simp [ciStrip] at h
      · rintro ⟨mid, h1, h2⟩
        have : mid ≠ [] := by
          intro hmid
          subst hmid
          simp at h2
        rcases mid with _ | ⟨m, ms⟩
        · exact absurd rfl this
        · simp at h1
    | cons c cs =>
      constructor
      · intro h
        simp only [ciStrip] at h
        by_cases he : eqCI p c
        · rw [if_pos he] at h
          obtain ⟨mid, h1, h2⟩ := (ih cs r).mp h
          refine ⟨c :: mid, by simp [h1], ?_⟩
          simp only [List.map_cons, h2]
          have : lowerChar c = lowerChar p := by
            simpa [eqCI, eq_comm] using he
          simp [this]
        · rw [if_neg he] at h
          exact absurd h (by simp)
      · rintro ⟨mid, h1, h2⟩
        rcases mid with _ | ⟨m, ms⟩
        · simp at h2
        · simp only [List.cons_append, List.cons.injEq] at h1
          obtain ⟨hcm, h1⟩ := h1
          subst hcm
          simp only [List.map_cons, List.cons.injEq] at h2
          obtain ⟨hm, h2⟩ := h2
          have he : eqCI p c = true := by simp [eqCI, hm]
          simp only [ciStrip, he, if_true]
          exact (ih cs r).mpr ⟨ms, h1, h2⟩

theorem ciStrip_append (w mid r : List Char) (h : mid.map lowerChar = w.map lowerChar) :
    ciStrip w (mid ++ r) = some r :=
  (ciStrip_iff w (mid ++ r) r).mpr ⟨mid, rfl, h⟩

theorem ciStrip_isSome_iff (w s : List Char) :
    ((ciStrip w s).isSome = true ↔
      ∃ mid post, s = mid ++ post ∧ mid.map lowerChar = w.map lowerChar) := by
  constructor
  · intro h
    obtain ⟨r, hr⟩ := Option.isSome_iff_exists.mp h
    obtain ⟨mid, h1, h2⟩ := (ciStrip_iff w s r).mp hr
    exact ⟨mid, r, h1, h2⟩
  · rintro ⟨mid, post, h1, h2⟩
    rw [h1, ciStrip_append w mid post h2]
    rfl

theorem head?_dropWhile_false (p : Char → Bool) (l : List Char) :
    ∀ c, (l.dropWhile p).head? = some c → p c = false := by
  induction l with
  | nil => intro c h; simp at h
  | cons a t ih =>
    intro c h
    rw [List.dropWhile_cons] at h
    by_cases ha : p a
    · rw [if_pos ha] at h
      exact ih c h
    · rw [if_neg ha] at h
      simp at h
      subst h
      exact Bool.eq_false_iff.mpr ha

theorem dropWhile_append_of_all (p : Char → Bool) (l1 l2 : List Char)
    (h : ∀ a ∈ l1, p a = true) : (l1 ++ l2).dropWhile p = l2.dropWhile p := by
  induction l1 with
  | nil => simp
  | cons a t ih =>
    have ha : p a = true := h a (by simp)
    simp only [List.cons_append, List.dropWhile_cons, ha, if_true]
    exact ih (fun b hb => h b (by simp [hb]))

theorem dropWhile_eq_self_of_head (p : Char → Bool) (l : List Char)
    (h : ∀ c, l.head? = some c → p c = false) : l.dropWhile p = l := by
  cases l with
  | nil => rfl
  | cons a t =>
    have ha : p a = false := h a rfl
    simp [List.dropWhile_cons, ha]

theorem eatRun_eq_some_iff (p : Char → Bool) (s r : List Char) :
    (eatRun p s = some r ↔
      ∃ run, run ≠ [] ∧ (∀ c ∈ run, p c = true) ∧ s = run ++ r ∧
        (∀ c, r.head? = some c → p c = false)) := by
  constructor
  · intro h
    cases s with
    | nil => simp [eatRun] at h
    | cons c rest =>
      simp only [eatRun] at h
      by_cases hc : p c
      · rw [if_pos hc] at h
        simp only [Option.some.injEq] at h
        refine ⟨c :: rest.takeWhile p, by simp, ?_, ?_, ?_⟩
        · intro a ha
          rcases List.mem_cons.mp ha with rfl | ha
          · exact hc
          · exact List.mem_takeWhile_imp ha
        · rw [← h]
          simp [List.takeWhile_append_dropWhile]
        · rw [← h]
          exact head?_dropWhile_false p rest
      · rw [if_neg hc] at h
        exact absurd h (by simp)
  · rintro ⟨run, hne, hall, rfl, hhd⟩
    rcases run with _ | ⟨c, run2⟩
    · exact absurd rfl hne
    · have hc : p c = true := hall c (by simp)
      simp only [List.cons_append, eatRun, hc, if_true, Option.some.injEq]
      rw [dropWhile_append_of_all p run2 r (fun b hb => hall b (by simp [hb]))]
      exact dropWhile_eq_self_of_head p r hhd

theorem pyIsSpace_false_of_lower_i (c : Char) (h : lowerChar c = 'i') :
    pyIsSpace c = false := by
  cases hc : pyIsSpace c
  · rfl
  · simp [pyIsSpace] at hc
    rcases hc with ((((rfl | rfl) | rfl) | rfl) | rfl) | rfl <;> exact absurd h (by decide)

theorem useInsteadAt_iff (s : List Char) :
    (useInsteadAt s = true ↔
      ∃ u w1 tok w2 ins post,
        s = u ++ (w1 ++ (tok ++ (w2 ++ (ins ++ post)))) ∧
        u.map lowerChar = "use".data ∧ ins.map lowerChar = "instead".data ∧
        w1 ≠ [] ∧ (∀ c ∈ w1, pyIsSpace c = true) ∧
        tok ≠ [] ∧ (∀ c ∈ tok, pyIsSpace c = false) ∧
        w2 ≠ [] ∧ (∀ c ∈ w2, pyIsSpace c = true)) := by
  constructor
  · intro h
    unfold useInsteadAt at h
    split at h
    · simp at h
    rename_i r1 h1
    split at h
    · simp at h
    rename_i r2 h2
    split at h
    · simp at h
    rename_i r3 h3
    split at h
    · simp at h
    rename_i r4 h4
    obtain ⟨u, hu1, hu2⟩ := (ciStrip_iff _ s r1).mp h1
    obtain ⟨w1, hw1ne, hw1all, hw1eq, _⟩ := (eatRun_eq_some_iff _ r1 r2).mp h2
    obtain ⟨tok, htokne, htokall, htokeq, _⟩ := (eatRun_eq_some_iff _ r2 r3).mp h3
    obtain ⟨w2, hw2ne, hw2all, hw2eq, _⟩ := (eatRun_eq_some_iff _ r3 r4).mp h4
    obtain ⟨ins, post, hi1, hi2⟩ := (ciStrip_isSome_iff _ r4).mp h
    refine ⟨u, w1, tok, w2, ins, post, ?_, ?_, ?_, hw1ne, hw1all, htokne, ?_, hw2ne, hw2all⟩
    · rw [hu1, hw1eq, htokeq, hw2eq, hi1]
    · rw [hu2]; decide
    · rw [hi2]; decide
    · intro c hc
      have := htokall c hc
      simpa using this
  · rintro ⟨u, w1, tok, w2, ins, post, rfl, hu, hins, hw1ne, hw1all, htokne, htokall,
      hw2ne, hw2all⟩
    have hinsne : ins ≠ [] := by
      intro hx
      rw [hx] at hins
      simp at hins
    have hs1 : ciStrip "use".data (u ++ (w1 ++ (tok ++ (w2 ++ (ins ++ post))))) =
        some (w1 ++ (tok ++ (w2 ++ (ins ++ post)))) :=
      ciStrip_append _ _ _ (by rw [hu]; decide)
    have hs2 : eatRun pyIsSpace (w1 ++ (tok ++ (w2 ++ (ins ++ post)))) =
        some (tok ++ (w2 ++ (ins ++ post))) := by
      refine (eatRun_eq_some_iff _ _ _).mpr ⟨w1, hw1ne, hw1all, rfl, ?_⟩
      intro c hc
      rcases tok with _ | ⟨t0, ts⟩
      · exact absurd rfl htokne
      · simp at hc
        rw [← hc]
        exact htokall t0 (by simp)
    have hs3 : eatRun (fun c => !pyIsSpace c) (tok ++ (w2 ++ (ins ++ post))) =
        some (w2 ++ (ins ++ post)) := by
      refine (eatRun_eq_some_iff _ _ _).mpr
        ⟨tok, htokne, fun c hc => by simp [htokall c hc], rfl, ?_⟩
      intro c hc
      rcases w2 with _ | ⟨v0, vs⟩
      · exact absurd rfl hw2ne
      · simp at hc
        rw [← hc]
        simp [hw2all v0 (by simp)]
    have hs4 : eatRun pyIsSpace (w2 ++ (ins ++ post)) = some (ins ++ post) := by
      refine (eatRun_eq_some_iff _ _ _).mpr ⟨w2, hw2ne, hw2all, rfl, ?_⟩
      intro c hc
      rcases ins with _ | ⟨i0, irest⟩
      · exact absurd rfl hinsne
      · simp at hc
        simp only [List.map_cons] at hins
        have hlow : lowerChar i0 = 'i' := by
          have := congrArg List.head? hins
          simpa using this
        rw [← hc]
        exact pyIsSpace_false_of_lower_i i0 hlow
    simp only [useInsteadAt, hs1, hs2, hs3, hs4]
    rw [ciStrip_append _ _ _ (by rw [hins]; decide)]
    rfl

theorem wordCIAt_iff (prev : Option Char) (w s : List Char) :
    (wordCIAt prev w s = true ↔
      ∃ mid post, s = mid ++ post ∧ mid.map lowerChar = w.map lowerChar ∧
        (∀ c, prev = some c → isWordChar c = false) ∧
        (∀ c, post.head? = some c → isWordChar c = false)) := by
  constructor
  · intro h
    unfold wordCIAt at h
    split at h
    · simp at h
    rename_i rest hcs
    simp only [Bool.and_eq_true] at h
    obtain ⟨hprev, hpost⟩ := h
    obtain ⟨mid, h1, h2⟩ := (ciStrip_iff w s rest).mp hcs
    refine ⟨mid, rest, h1, h2, ?_, ?_⟩
    · intro c hc
      rw [hc] at hprev
      simpa using hprev
    · intro c hc
      rcases rest with _ | ⟨r0, rr⟩
      · simp at hc
      · simp at hc
        rw [← hc]
        simpa using hpost
  · rintro ⟨mid, post, rfl, h2, hprev, hpost⟩
    simp only [wordCIAt, ciStrip_append w mid post h2]
    simp only [Bool.and_eq_true]
    constructor
    · rcases prev with _ | c
      · rfl
      · simpa using hprev c rfl
    · rcases post with _ | ⟨p0, pp⟩
      · rfl
      · simpa using hpost p0 rfl

theorem depMatchAt_nil (prev : Option Char) : depMatchAt prev [] = false := rfl

theorem depScanGo_iff : ∀ (rest pre : List Char),
    (depScanGo pre rest = true ↔
      ∃ mid suf, rest = mid ++ suf ∧ depMatchAt (pre ++ mid).getLast? suf = true) := by
  intro rest
  induction rest with
  | nil =>
    intro pre
    constructor
    · intro h
      simp [depScanGo] at h
    · rintro ⟨mid, suf, h1, h2⟩
      have hmid : mid = [] := by
        cases mid <;> simp at h1 ⊢
      have hsuf : suf = [] := by
        rw [hmid] at h1
        simpa using h1.symm
      rw [hsuf, depMatchAt_nil] at h2
      exact absurd h2 (by simp)
  | cons c rest ih =>
    intro pre
    simp only [depScanGo, Bool.or_eq_true]
    constructor
    · rintro (h | h)
      · exact ⟨[], c :: rest, by simp, by simpa using h⟩
      · obtain ⟨mid2, suf, h1, h2⟩ := (ih (pre ++ [c])).mp h
        refine ⟨c :: mid2, suf, by simp [h1], ?_⟩
        rw [show pre ++ c :: mid2 = (pre ++ [c]) ++ mid2 by simp]
        exact h2
    · rintro ⟨mid, suf, h1, h2⟩
      rcases mid with _ | ⟨m, ms⟩
      · left
        simp only [List.nil_append] at h1
        rw [← h1] at h2
        simpa using h2
      · right
        simp only [List.cons_append, List.cons.injEq] at h1
        obtain ⟨hcm, h1⟩ := h1
        subst hcm
        refine (ih (pre ++ [c])).mpr ⟨ms, suf, h1, ?_⟩
        rw [show (pre ++ [c]) ++ ms = pre ++ c :: ms by simp]
        exact h2

theorem depMatch_iff (s : String) :
    (depMatch s = true ↔
      ∃ pre suf, s.data = pre ++ suf ∧ depMatchAt pre.getLast? suf = true) := by
  unfold depMatch
  rw [depScanGo_iff s.data []]
  constructor
  · rintro ⟨mid, suf, h1, h2⟩
    exact ⟨mid, suf, h1, by simpa using h2⟩
  · rintro ⟨pre, suf, h1, h2⟩
    exact ⟨pre, suf, h1, by simpa using h2⟩

theorem lazyTok_run (tok : List Char) : ∀ (acc more : List Char) (c : Char),
    tok ≠ [] → (∀ x ∈ tok, pyIsSpace x = false ∧ x ≠ '.') →
    (pyIsSpace c = true ∨ c = '.') →
    lazyTok acc (tok ++ c :: more) = some (acc ++ tok) := by
  induction tok with
  | nil => intro acc more c h hns hc; exact absurd rfl h
  | cons x t ih =>
    intro acc more c hne hns hc
    have hx := hns x (by simp)
    cases t with
    | nil =>
      have hcterm : (pyIsSpace c || c = '.') = true := by
        rcases hc with h | h <;> simp [h]
      simp [lazyTok, hx.1, hcterm]
    | cons y t2 =>
      have hy := hns y (by simp)
      have hyterm : (pyIsSpace y || y = '.') = false := by
        simp [hy.1, hy.2]
      rw [show ((x :: y :: t2) ++ c :: more) = x :: (y :: (t2 ++ c :: more)) by simp]
      rw [lazyTok]
      rw [if_neg (by simp [hx.1])]
      rw [if_neg (by simp [hyterm])]
      have h2 := ih (acc ++ [x]) more c (by simp)
        (fun z hz => hns z (by simp [hz])) hc
      simp only [List.cons_append] at h2
      rw [h2]
      simp

theorem depHint_use_truncates (tok more : List Char) (c : Char)
    (htok : tok ≠ []) (hns : ∀ x ∈ tok, pyIsSpace x = false ∧ x ≠ '.')
    (hc : pyIsSpace c = true ∨ c = '.') :
    depHint ⟨'U' :: 's' :: 'e' :: ' ' :: (tok ++ c :: more)⟩ = (⟨tok⟩ : String) := by
  have hdrop : (tok ++ c :: more).dropWhile pyIsSpace = tok ++ c :: more := by
    apply dropWhile_eq_self_of_head
    intro x hx
    rcases tok with _ | ⟨t0, ts⟩
    · exact absurd rfl htok
    · simp only [List.cons_append, List.head?_cons, Option.some.injEq] at hx
      rw [← hx]
      exact (hns t0 (by simp)).1
  have hat : hintAt ('U' :: 's' :: 'e' :: ' ' :: (tok ++ c :: more)) = some tok := by
    unfold hintAt
    have hlit : litStrip "use".data ('U' :: 's' :: 'e' :: ' ' :: (tok ++ c :: more)) =
        none := by
      simp [litStrip]
    have hlit2 : litStrip "Use".data ('U' :: 's' :: 'e' :: ' ' :: (tok ++ c :: more)) =
        some (' ' :: (tok ++ c :: more)) := by
      simp [litStrip]
    rw [hlit, hlit2]
    have hsp : pyIsSpace ' ' = true := by decide
    have heat : eatRun pyIsSpace (' ' :: (tok ++ c :: more)) = some (tok ++ c :: more) := by
      simp [eatRun, hdrop, hsp]
    simp only [Option.orElse]
    rw [heat]
    have h3 := lazyTok_run tok [] more c htok hns hc
    simpa using h3
  unfold depHint
  have hscan : hintScan (String.mk ('U' :: 's' :: 'e' :: ' ' :: (tok ++ c :: more))).data =
      some tok := by
    show hintScan ('U' :: 's' :: 'e' :: ' ' :: (tok ++ c :: more)) = some tok
    rw [hintScan, hat]
  rw [hscan]

/-- C6 counterexample: in the summary `"Obsolete. Use Foo.Bar instead."`,
the first whitespace-delimited token following "Use" is `Foo.Bar` (a run of
non-space characters delimited by a space), but the extracted hint is
`"Foo"`: the hint regex `(?:use|Use)\s+(\S+?)[\s.]` stops the lazy group
at the first dot. -/
theorem deprecation_hint_counterexample :
    depMatch "Obsolete. Use Foo.Bar instead." = true ∧
    depHint "Obsolete. Use Foo.Bar instead." = "Foo" ∧
    ("Obsolete. Use Foo.Bar instead." : String).data =
      "Obsolete. Use ".data ++ ("Foo.Bar".data ++ " instead.".data) ∧
    (∀ c ∈ ("Foo.Bar" : String).data, pyIsSpace c = false) ∧
    (" instead." : String).data.head? = some ' ' ∧
    ("Foo" : String) ≠ "Foo.Bar" := by decide

/-- C6 amended.  The deprecated flag is set exactly when the summary
contains (case-insensitively) a word-bounded occurrence of `obsolete` or
`deprecated`, or an occurrence of `use` + whitespace + a non-empty run of
non-whitespace + whitespace + `instead`.  The hint is the shortest
non-empty run of non-space characters following the first case-preserving
`use`/`Use` + whitespace, terminated by — and truncated before — a
whitespace character or a dot (so `"Use Foo.Bar instead"` yields `"Foo"`,
not `"Foo.Bar"`); the specification's example still yields `"Raycast2"`. -/
theorem deprecation_flag_and_hint (s : String) :
    (depMatch s = true ↔
      (∃ pre mid post, s.data = pre ++ (mid ++ post) ∧
        (mid.map lowerChar = "obsolete".data ∨ mid.map lowerChar = "deprecated".data) ∧
        (∀ c, pre.getLast? = some c → isWordChar c = false) ∧
        (∀ c, post.head? = some c → isWordChar c = false)) ∨
      (∃ pre u w1 tok w2 ins post,
        s.data = pre ++ (u ++ (w1 ++ (tok ++ (w2 ++ (ins ++ post))))) ∧
        u.map lowerChar = "use".data ∧ ins.map lowerChar = "instead".data ∧
        w1 ≠ [] ∧ (∀ c ∈ w1, pyIsSpace c = true) ∧
        tok ≠ [] ∧ (∀ c ∈ tok, pyIsSpace c = false) ∧
        w2 ≠ [] ∧ (∀ c ∈ w2, pyIsSpace c = true))) ∧
    depMatch "This method is obsolete. Use Raycast2 instead." = true ∧
    depHint "This method is obsolete. Use Raycast2 instead." = "Raycast2" ∧
    depHint "Obsolete. Use Foo.Bar instead." = "Foo" ∧
    (∀ tok more c, tok ≠ [] → (∀ x ∈ tok, pyIsSpace x = false ∧ x ≠ '.') →
      (pyIsSpace c = true ∨ c = '.') →
      depHint ⟨'U' :: 's' :: 'e' :: ' ' :: (tok ++ c :: more)⟩ = (⟨tok⟩ : String)) := by
  refine ⟨?_, by decide, by decide, by decide,
    fun tok more c h1 h2 h3 => depHint_use_truncates tok more c h1 h2 h3⟩
  rw [depMatch_iff]
  constructor
  · rintro ⟨pre, suf, hsplit, hat⟩
    unfold depMatchAt at hat
    simp only [Bool.or_eq_true] at hat
    rcases hat with (hat | hat) | hat
    · obtain ⟨mid, post, hsuf, hmap, hprev, hpost⟩ := (wordCIAt_iff _ _ suf).mp hat
      exact Or.inl ⟨pre, mid, post, by rw [hsplit, hsuf], Or.inl (by rw [hmap]; decide),
        hprev, hpost⟩
    · obtain ⟨mid, post, hsuf, hmap, hprev, hpost⟩ := (wordCIAt_iff _ _ suf).mp hat
      exact Or.inl ⟨pre, mid, post, by rw [hsplit, hsuf], Or.inr (by rw [hmap]; decide),
        hprev, hpost⟩
    · obtain ⟨u, w1, tok, w2, ins, post, hsuf, hu, hins, hw1, hw1a, ht, hta, hw2, hw2a⟩ :=
        (useInsteadAt_iff suf).mp hat
      exact Or.inr ⟨pre, u, w1, tok, w2, ins, post, by rw [hsplit, hsuf], hu, hins,
        hw1, hw1a, ht, hta, hw2, hw2a⟩
  · rintro (⟨pre, mid, post, hsplit, hmap, hprev, hpost⟩ |
      ⟨pre, u, w1, tok, w2, ins, post, hsplit, hu, hins, hw1, hw1a, ht, hta, hw2, hw2a⟩)
    · refine ⟨pre, mid ++ post, hsplit, ?_⟩
      unfold depMatchAt
      simp only [Bool.or_eq_true]
      rcases hmap with hmap | hmap
      · exact Or.inl (Or.inl ((wordCIAt_iff _ _ _).mpr
          ⟨mid, post, rfl, by rw [hmap]; decide, hprev, hpost⟩))
      · exact Or.inl (Or.inr ((wordCIAt_iff _ _ _).mpr
          ⟨mid, post, rfl, by rw [hmap]; decide, hprev, hpost⟩))
    · refine ⟨pre, u ++ (w1 ++ (tok ++ (w2 ++ (ins ++ post)))), hsplit, ?_⟩
      unfold depMatchAt
      simp only [Bool.or_eq_true]
      exact Or.inr ((useInsteadAt_iff _).mpr
        ⟨u, w1, tok, w2, ins, post, rfl, hu, hins, hw1, hw1a, ht, hta, hw2, hw2a⟩)

/-- C6 witness: the flag characterization and the general hint-truncation
clause at concrete summaries, via `deprecation_flag_and_hint`. -/
theorem deprecation_flag_and_hint_witness :
    depMatch "Totally obsolete now" = true ∧ depMatch "nothing to see" = false ∧
      depHint ⟨'U' :: 's' :: 'e' :: ' ' :: ("Alpha".data ++ '.' :: "Beta".data)⟩ = "Alpha" :=
  ⟨(deprecation_flag_and_hint "Totally obsolete now").1.mpr
    (Or.inl ⟨"Totally ".data, "obsolete".data, " now".data, by decide, Or.inl (by decide),
      by
        intro c hc
        rw [show ("Totally ".data.getLast?) = some ' ' from by decide] at hc
        injection hc with h
        subst h
        decide,
      by
        intro c hc
        rw [show ((" now".data).head?) = some ' ' from by decide] at hc
        injection hc with h
        subst h
        decide⟩),
   by decide,
   (by exact (deprecation_flag_and_hint "").2.2.2.2 "Alpha".data "Beta".data '.'
         (by decide) (by decide) (by decide))⟩

theorem uniqueFqn_insertOne (tbl : List Row) (row : Row) (h : uniqueFqn tbl) :
    uniqueFqn (insertOne tbl row) := by
  unfold uniqueFqn insertOne
  rw [List.pairwise_append]
  refine ⟨h.filter _, by simp, ?_⟩
  intro a ha b hb
  have := List.of_mem_filter ha
  simp only [List.mem_singleton] at hb
  subst hb
  simpa using this

theorem filter_filter_of_imp {α : Type} (p f : α → Bool) (l : List α)
    (h : ∀ x, p x = true → f x = true) : (l.filter f).filter p = l.filter p := by
  induction l with
  | nil => simp
  | cons a t ih =>
    by_cases hpa : p a = true
    · have hfa : f a = true := h a hpa
      rw [List.filter_cons_of_pos hfa, List.filter_cons_of_pos hpa,
        List.filter_cons_of_pos hpa, ih]
    · by_cases hfa : f a = true
      · rw [List.filter_cons_of_pos hfa, List.filter_cons_of_neg (by simp [hpa]),
          List.filter_cons_of_neg (by simp [hpa])]
        exact ih
      · rw [List.filter_cons_of_neg (by simp [hfa]),
          List.filter_cons_of_neg (by simp [hpa])]
        exact ih

theorem find?_filter_of_imp {α : Type} (p f : α → Bool) (l : List α)
    (h : ∀ x, p x = true → f x = true) : (l.filter f).find? p = l.find? p := by
  induction l with
  | nil => simp
  | cons a t ih =>
    by_cases hpa : p a = true
    · have hfa : f a = true := h a hpa
      rw [List.filter_cons_of_pos hfa, List.find?_cons_of_pos _ hpa,
        List.find?_cons_of_pos _ hpa]
    · by_cases hfa : f a = true
      · rw [List.filter_cons_of_pos hfa, List.find?_cons_of_neg _ (by simp [hpa]),
          List.find?_cons_of_neg _ (by simp [hpa])]
        exact ih
      · rw [List.filter_cons_of_neg (by simp [hfa]),
          List.find?_cons_of_neg _ (by simp [hpa])]
        exact ih

theorem getByFqn_insertOne_self (tbl : List Row) (row : Row) :
    getByFqn (insertOne tbl row) row.fqn = some row := by
  unfold getByFqn insertOne
  rw [List.find?_append]
  have h1 : (tbl.filter (fun t => t.fqn ≠ row.fqn)).find? (fun t => t.fqn = row.fqn) = none := by
    rw [List.find?_eq_none]
    intro x hx
    have := List.of_mem_filter hx
    simpa using this
  rw [h1]
  simp

theorem getByFqn_insertOne_other (tbl : List Row) (row : Row) (q : String)
    (hne : row.fqn ≠ q) : getByFqn (insertOne tbl row) q = getByFqn tbl q := by
  unfold getByFqn insertOne
  rw [List.find?_append]
  have h1 : (tbl.filter (fun t => t.fqn ≠ row.fqn)).find? (fun t => t.fqn = q) =
      tbl.find? (fun t => t.fqn = q) := by
    refine find?_filter_of_imp _ _ tbl ?_
    intro x hx
    have hx2 : x.fqn = q := by simpa using hx
    have : x.fqn ≠ row.fqn := fun h2 => hne (h2 ▸ hx2)
    simpa using this
  rw [h1]
  have h2 : ([row].find? (fun t => t.fqn = q)) = none := by
    simp [hne]
  rw [h2]
  cases tbl.find? (fun t => t.fqn = q) <;> rfl

theorem countFqn_insertOne (tbl : List Row) (row : Row) (q : String) :
    countFqn (insertOne tbl row) q = if row.fqn = q then 1 else countFqn tbl q := by
  unfold countFqn insertOne
  rw [List.filter_append]
  by_cases hr : row.fqn = q
  · have h1 : (tbl.filter (fun t => t.fqn ≠ row.fqn)).filter (fun t => t.fqn = q) = [] := by
      rw [List.filter_eq_nil_iff]
      intro a ha
      have h2 : a.fqn ≠ row.fqn := by simpa using List.of_mem_filter ha
      simp only [decide_eq_true_eq]
      intro he
      exact h2 (he.trans hr.symm)
    rw [h1]
    simp [hr]
  · have h1 : (tbl.filter (fun t => t.fqn ≠ row.fqn)).filter (fun t => t.fqn = q) =
        tbl.filter (fun t => t.fqn = q) := by
      refine filter_filter_of_imp _ _ tbl ?_
      intro x hx
      have hx2 : x.fqn = q := by simpa using hx
      have hxx : x.fqn ≠ row.fqn := fun h2 => hr (h2 ▸ hx2)
      simpa using hxx
    rw [h1]
    simp [hr]

theorem uniqueFqn_insertRecords (rs : List ApiRecord) : ∀ (tbl : List Row),
    uniqueFqn tbl → uniqueFqn (insertRecords tbl rs) := by
  induction rs with
  | nil => intro tbl h; exact h
  | cons r rest ih =>
    intro tbl h
    exact ih (insertOne tbl (encodeRecord r)) (uniqueFqn_insertOne tbl (encodeRecord r) h)

theorem getByFqn_insertRecords_of_none (rs : List ApiRecord) : ∀ (tbl : List Row) (q : String),
    rs.filter (fun x => x.fqn = q) = [] →
    getByFqn (insertRecords tbl rs) q = getByFqn tbl q := by
  induction rs with
  | nil => intro tbl q _; rfl
  | cons r rest ih =>
    intro tbl q h
    by_cases hr : r.fqn = q
    · rw [List.filter_cons_of_pos (by simpa using hr)] at h
      simp at h
    · rw [List.filter_cons_of_neg (by simpa using hr)] at h
      have hstep : insertRecords tbl (r :: rest) =
          insertRecords (insertOne tbl (encodeRecord r)) rest := rfl
      rw [hstep, ih _ q h]
      exact getByFqn_insertOne_other tbl (encodeRecord r) q hr

theorem getByFqn_insertRecords_of_last (rs : List ApiRecord) :
    ∀ (tbl : List Row) (q : String) (r : ApiRecord),
    (rs.filter (fun x => x.fqn = q)).getLast? = some r →
    getByFqn (insertRecords tbl rs) q = some (encodeRecord r) := by
  induction rs with
  | nil => intro tbl q r h; simp at h
  | cons r0 rest ih =>
    intro tbl q r h
    have hstep : insertRecords tbl (r0 :: rest) =
        insertRecords (insertOne tbl (encodeRecord r0)) rest := rfl
    rw [hstep]
    rcases hfr : rest.filter (fun x => x.fqn = q) with _ | ⟨b, bs⟩
    · by_cases hr : r0.fqn = q
      · rw [List.filter_cons_of_pos (by simpa using hr), hfr] at h
        simp at h
        subst h
        rw [getByFqn_insertRecords_of_none rest _ q hfr]
        have : (encodeRecord r0).fqn = q := hr
        rw [← this]
        exact getByFqn_insertOne_self tbl (encodeRecord r0)
      · rw [List.filter_cons_of_neg (by simpa using hr), hfr] at h
        simp at h
    · have hlast : (rest.filter (fun x => x.fqn = q)).getLast? = some r := by
        by_cases hr : r0.fqn = q
        · rw [List.filter_cons_of_pos (by simpa using hr), hfr] at h
          rw [List.getLast?_cons_cons] at h
          rw [hfr]
          exact h
        · rw [List.filter_cons_of_neg (by simpa using hr)] at h
          exact h
      exact ih _ q r hlast

theorem countFqn_insertRecords (rs : List ApiRecord) : ∀ (tbl : List Row) (q : String),
    countFqn (insertRecords tbl rs) q =
      if rs.filter (fun x => x.fqn = q) = [] then countFqn tbl q else 1 := by
  induction rs with
  | nil => intro tbl q; simp [insertRecords]
  | cons r rest ih =>
    intro tbl q
    have hstep : insertRecords tbl (r :: rest) =
        insertRecords (insertOne tbl (encodeRecord r)) rest := rfl
    rw [hstep, ih]
    by_cases hr : r.fqn = q
    · rw [List.filter_cons_of_pos (by simpa using hr)]
      rcases hfr : rest.filter (fun x => x.fqn = q) with _ | ⟨b, bs⟩
      · rw [hfr, if_pos rfl, if_neg (by simp)]
        rw [countFqn_insertOne]
        have h2 : (encodeRecord r).fqn = q := hr
        rw [if_pos h2]
      · rw [hfr, if_neg (by simp), if_neg (by simp)]
    · rw [List.filter_cons_of_neg (by simpa using hr)]
      rcases hfr : rest.filter (fun x => x.fqn = q) with _ | ⟨b, bs⟩
      · rw [hfr, if_pos rfl, if_pos rfl]
        rw [countFqn_insertOne]
        have h2 : (encodeRecord r).fqn ≠ q := hr
        rw [if_neg h2]
      · rw [hfr, if_neg (by simp), if_neg (by simp)]

/-- C8.  Replace-on-duplicate-key semantics of the bulk insert: starting
from any table satisfying the primary-key invariant, if the input list
carries at least two records with fqn `q`, then after `insert_records`
exactly one row with fqn `q` exists, the exact lookup returns the encoding
of the last such input record, and the fqn-uniqueness invariant holds
again. -/
theorem insert_replace_last_wins (tbl : List Row) (rs : List ApiRecord) (q : String)
    (hu : uniqueFqn tbl) (hq : 2 ≤ (rs.filter (fun r => r.fqn = q)).length) :
    countFqn (insertRecords tbl rs) q = 1 ∧
    (∀ r, (rs.filter (fun x => x.fqn = q)).getLast? = some r →
      getByFqn (insertRecords tbl rs) q = some (encodeRecord r)) ∧
    uniqueFqn (insertRecords tbl rs) := by
  have hne : rs.filter (fun x => x.fqn = q) ≠ [] := by
    intro h
    rw [h] at hq
    simp at hq
  refine ⟨?_, ?_, uniqueFqn_insertRecords rs tbl hu⟩
  · rw [countFqn_insertRecords, if_neg hne]
  · intro r hr
    exact getByFqn_insertRecords_of_last rs tbl q r hr

/-- C8 witness: two concrete records sharing the fqn `X` collapse to a
single row holding the later record's fields, via
`insert_replace_last_wins`. -/
theorem insert_replace_last_wins_witness :
    countFqn (insertRecords []
      [⟨"X", "N", "C", "M", "method", "older", [], "", false, ""⟩,
       ⟨"X", "N", "C", "M", "method", "newer", [], "", false, ""⟩]) "X" = 1 ∧
    getByFqn (insertRecords []
      [⟨"X", "N", "C", "M", "method", "older", [], "", false, ""⟩,
       ⟨"X", "N", "C", "M", "method", "newer", [], "", false, ""⟩]) "X" =
      some (encodeRecord ⟨"X", "N", "C", "M", "method", "newer", [], "", false, ""⟩) := by
  have h := insert_replace_last_wins []
    [⟨"X", "N", "C", "M", "method", "older", [], "", false, ""⟩,
     ⟨"X", "N", "C", "M", "method", "newer", [], "", false, ""⟩] "X"
    (by simp [uniqueFqn]) (by decide)
  exact ⟨h.1, h.2.1 ⟨"X", "N", "C", "M", "method", "newer", [], "", false, ""⟩ (by decide)⟩

/-- C9.  Round-trip: if a record's fqn occurs exactly once in the ingested
list (the filtered list is exactly `[r]`), then fetching that fqn after the
bulk insert returns precisely the row encoding of `r`, whatever the table
held before; and that encoding carries `r`'s ten fields — the eight text
fields byte-identically, `deprecated` as the integer `1`/`0` encoding of
the bool, and `params` as its `json.dumps` serialization. -/
theorem insert_then_get_roundtrip (tbl : List Row) (rs : List ApiRecord) (r : ApiRecord)
    (h1 : rs.filter (fun x => x.fqn = r.fqn) = [r]) :
    getByFqn (insertRecords tbl rs) r.fqn = some (encodeRecord r) ∧
    (encodeRecord r).fqn = r.fqn ∧
    (encodeRecord r).nspace = r.nspace ∧
    (encodeRecord r).class_name = r.class_name ∧
    (encodeRecord r).member_name = r.member_name ∧
    (encodeRecord r).member_type = r.member_type ∧
    (encodeRecord r).summary = r.summary ∧
    (encodeRecord r).params_json = jsonDumpsParams r.params_json ∧
    (encodeRecord r).returns_text = r.returns_text ∧
    ((encodeRecord r).deprecated = 1 ↔ r.deprecated = true) ∧
    (encodeRecord r).deprecation_hint = r.deprecation_hint := by
  refine ⟨?_, rfl, rfl, rfl, rfl, rfl, rfl, rfl, rfl, ?_, rfl⟩
  · exact getByFqn_insertRecords_of_last rs tbl r.fqn r (by rw [h1]; rfl)
  · unfold encodeRecord
    cases hr : r.deprecated <;> simp [hr]

/-- C9 witness: a concrete record with parameters round-trips through the
store, via `insert_then_get_roundtrip`. -/
theorem insert_then_get_roundtrip_witness :
    getByFqn (insertRecords []
      [⟨"UnityEngine.Physics.Raycast", "UnityEngine", "Physics", "Raycast", "method",
        "Casts a ray.", [⟨"ray", "The ray."⟩], "True on hit.", false, ""⟩])
      "UnityEngine.Physics.Raycast" =
      some (encodeRecord
        ⟨"UnityEngine.Physics.Raycast", "UnityEngine", "Physics", "Raycast", "method",
         "Casts a ray.", [⟨"ray", "The ray."⟩], "True on hit.", false, ""⟩) :=
  (insert_then_get_roundtrip []
    [⟨"UnityEngine.Physics.Raycast", "UnityEngine", "Physics", "Raycast", "method",
      "Casts a ray.", [⟨"ray", "The ray."⟩], "True on hit.", false, ""⟩]
    ⟨"UnityEngine.Physics.Raycast", "UnityEngine", "Physics", "Raycast", "method",
     "Casts a ray.", [⟨"ray", "The ray."⟩], "True on hit.", false, ""⟩
    (by decide)).1

theorem mem_insertSorted {α : Type} (le : α → α → Bool) (a x : α) (l : List α) :
    x ∈ insertSorted le a l ↔ x = a ∨ x ∈ l := by
  induction l with
  | nil => simp [insertSorted]
  | cons b t ih =>
    simp only [insertSorted]
    by_cases h : le a b
    · simp [h]
    · simp only [if_neg h, List.mem_cons, ih]
      tauto

theorem mem_sortBy {α : Type} (le : α → α → Bool) (x : α) (l : List α) :
    x ∈ sortBy le l ↔ x ∈ l := by
  induction l with
  | nil => simp [sortBy]
  | cons a t ih =>
    simp only [sortBy, mem_insertSorted, ih, List.mem_cons]

/-- C1 counterexample: SQL `LIKE` is ASCII-case-insensitive, so the second
stage of the cascade returns a row whose fqn does not start with the query
string; the claim's reading of stage 2 ("all fqns starting with q") would
leave the stage empty and fall through to free-text search. -/
theorem method_signature_counterexample :
    getMethodSignature (fun _ => 0)
      [⟨"UnityEngine.GameObject", "UnityEngine", "GameObject", "", "type",
        "Base class for entities.", "[]", "", 0, ""⟩] "unityengine.Game" =
      .overloads [⟨"UnityEngine.GameObject", "UnityEngine", "GameObject", "", "type",
        "Base class for entities.", "[]", "", 0, ""⟩] ∧
    ¬ ("unityengine.Game".data <+: "UnityEngine.GameObject".data) := by decide

/-- C1 amended: the lookup cascade of `get_method_signature`.  The function
is total (one of the four results is always returned, so a wholly absent
name yields the explicit no-match result rather than an exception).  An
exact fqn hit short-circuits the cascade; exactly when it misses, the LIKE
prefix stage runs and, when non-empty, its full row set is returned as the
overload set; exactly when that is also empty, ranked free-text search
runs; when all three are empty the result is `noMatch`.  Stage 2 contains
precisely the rows whose fqn matches `q || '%'` under SQL LIKE — for a
wildcard-free query these are the fqns having `q` as an
ASCII-case-insensitive prefix, a superset of the claim's case-sensitive
reading. -/
theorem method_signature_cascade (bm25 : Row → ℚ) (db : List Row) (q : String) :
    (∀ r, getByFqn db q = some r → getMethodSignature bm25 db q = .exact r) ∧
    (getByFqn db q = none → prefixRows db q ≠ [] →
      getMethodSignature bm25 db q = .overloads (prefixRows db q)) ∧
    (∀ row, row ∈ prefixRows db q ↔
      row ∈ db ∧ likeMatch (q ++ "%") row.fqn = true) ∧
    ('%' ∉ q.data → '_' ∉ q.data →
      ∀ row, row ∈ prefixRows db q ↔
        row ∈ db ∧ q.data.map lowerChar <+: row.fqn.data.map lowerChar) ∧
    (getByFqn db q = none → prefixRows db q = [] →
      searchRows bm25 db q 5 none ≠ [] →
      getMethodSignature bm25 db q = .fuzzy (searchRows bm25 db q 5 none)) ∧
    (getByFqn db q = none → prefixRows db q = [] →
      searchRows bm25 db q 5 none = [] →
      getMethodSignature bm25 db q = .noMatch) := by
  have hmem : ∀ row, row ∈ prefixRows db q ↔
      row ∈ db ∧ likeMatch (q ++ "%") row.fqn = true := by
    intro row
    unfold prefixRows
    rw [mem_sortBy, List.mem_filter]
  refine ⟨?_, ?_, hmem, ?_, ?_, ?_⟩
  · intro r h
    unfold getMethodSignature
    rw [h]
  · intro h1 h2
    unfold getMethodSignature
    rw [h1]
    simp only [if_pos h2]
  · intro hp hu row
    rw [hmem row]
    have hdata : (q ++ "%").data = q.data ++ ['%'] := by
      simp [String.data_append]
    constructor
    · rintro ⟨h1, h2⟩
      refine ⟨h1, ?_⟩
      have := h2
      unfold likeMatch at this
      rw [hdata] at this
      exact (likeM_trailing_pct q.data hp hu row.fqn.data).mp this
    · rintro ⟨h1, h2⟩
      refine ⟨h1, ?_⟩
      unfold likeMatch
      rw [hdata]
      exact (likeM_trailing_pct q.data hp hu row.fqn.data).mpr h2
  · intro h1 h2 h3
    unfold getMethodSignature
    rw [h1]
    simp only [h2]
    rw [if_neg (show ¬(([] : List Row) ≠ []) from by simp), if_pos h3]
  · intro h1 h2 h3
    unfold getMethodSignature
    rw [h1]
    simp only [h2, h3]
    rw [if_neg (show ¬(([] : List Row) ≠ []) from by simp),
      if_neg (show ¬(([] : List Row) ≠ []) from by simp)]

/-- C1 witness: the overload stage and the explicit no-match result at
concrete inputs, via `method_signature_cascade`. -/
theorem method_signature_cascade_witness :
    getMethodSignature (fun _ => 0)
      [⟨"UnityEngine.GameObject.SetActive(System.Boolean)", "UnityEngine", "GameObject",
        "SetActive", "method", "Activates the object.", "[]", "", 0, ""⟩]
      "UnityEngine.GameObject.SetActive" =
      .overloads (prefixRows
        [⟨"UnityEngine.GameObject.SetActive(System.Boolean)", "UnityEngine", "GameObject",
          "SetActive", "method", "Activates the object.", "[]", "", 0, ""⟩]
        "UnityEngine.GameObject.SetActive") ∧
    getMethodSignature (fun _ => 0) [] "UnityEngine.Absent" = .noMatch := by
  constructor
  · exact (method_signature_cascade (fun _ => 0)
      [⟨"UnityEngine.GameObject.SetActive(System.Boolean)", "UnityEngine", "GameObject",
        "SetActive", "method", "Activates the object.", "[]", "", 0, ""⟩]
      "UnityEngine.GameObject.SetActive").2.1 (by decide) (by decide)
  · exact (method_signature_cascade (fun _ => 0) [] "UnityEngine.Absent").2.2.2.2.2
      (by decide) (by decide) (by decide)

/-- C7 counterexample: a type declaration whose doc block's tag-stripped
summary is `"ab"` (length 2 < 3) still produces a record — the
class-tracking branch of `_parse_cs_file` checks only that the raw doc
block is non-empty and skips the 3-character check of
`_parse_declaration`. -/
theorem short_summary_type_record_counterexample :
    parseCsLines ["/// <summary>ab</summary>", "public class Foo \x7b"] =
      [⟨"Foo", "", "Foo", "", "type", "ab", [], "", false, ""⟩] ∧
    ("ab" : String).length < 3 := by decide

/-- C7 amended: every declaration classified by `_parse_declaration` (all
member kinds, and type declarations reached through the doc-block
dispatch) produces no record when its tag-stripped summary is empty or
under 3 characters — a declaration with no doc block falls under this,
since its summary is empty; but the class-tracking branch of the file scan
additionally emits a type record whenever the backward doc block is
non-empty, even when the tag-stripped summary is under 3 characters, as
the second conjunct shows on a concrete file. -/
theorem classifier_short_summary_no_record :
    (∀ decl_line doc_text nspace class_name : String,
      (csSummaryOf doc_text = "" ∨ (csSummaryOf doc_text).length < 3) →
      parseDeclaration decl_line doc_text nspace class_name = none) ∧
    parseCsLines ["/// <summary>ab</summary>", "public class Foo \x7b"] =
      [⟨"Foo", "", "Foo", "", "type", "ab", [], "", false, ""⟩] := by
  refine ⟨?_, by decide⟩
  intro d dt ns cls h
  unfold parseDeclaration
  rw [if_pos h]

/-- C7 witness: a concrete member declaration with a 2-character summary
yields no record, via `classifier_short_summary_no_record`. -/
theorem classifier_short_summary_no_record_witness :
    (csSummaryOf "<summary>ab</summary>" = "" ∨
      (csSummaryOf "<summary>ab</summary>").length < 3) ∧
    parseDeclaration "public int X;" "<summary>ab</summary>" "N" "C" = none :=
  ⟨Or.inr (by decide),
   classifier_short_summary_no_record.1 "public int X;" "<summary>ab</summary>" "N" "C"
     (Or.inr (by decide))⟩

theorem hintInv_mk (fqn ns cls mem mt summary : String) (params : List Param)
    (ret : String) (b : Bool) :
    hintInv ⟨fqn, ns, cls, mem, mt, summary, params, ret, b,
      if b then depHint summary else ""⟩ := by
  cases b <;> simp [hintInv]

theorem hintInv_mk2 (fqn ns cls mem mt summary : String) (params : List Param)
    (ret : String) (b : Bool) (p : Prop) [Decidable p] :
    hintInv ⟨fqn, ns, cls, mem, mt, summary, params, ret, b,
      if b = true ∧ p then depHint summary else ""⟩ := by
  cases b <;> simp [hintInv]

theorem classBranchRecord_hintInv (ns cname db : String) :
    hintInv (classBranchRecord ns cname db) := by
  unfold classBranchRecord
  exact hintInv_mk _ _ _ _ _ _ _ _ _

theorem parseDeclaration_hintInv (d dt ns cls : String) (r : ApiRecord)
    (h : parseDeclaration d dt ns cls = some r) : hintInv r := by
  unfold parseDeclaration at h
  dsimp only at h
  repeat' split at h
  all_goals first
    | (obtain rfl := Option.some.inj h
       unfold hintInv
       constructor <;> intro hx <;> simp_all)
    | exact absurd h (by simp)

theorem scanCsF_hintInv : ∀ (fuel : Nat) (pending lines : List String) (ns : String)
    (stack : List String) (r : ApiRecord),
    r ∈ scanCsF fuel pending lines ns stack → hintInv r := by
  intro fuel
  induction fuel with
  | zero =>
    intro pending lines ns stack r h
    simp [scanCsF] at h
  | succ n ih =>
    intro pending lines ns stack r h
    unfold scanCsF at h
    cases lines with
    | nil => simp at h
    | cons l rest =>
      simp only [] at h
      cases hns : nsMatch l with
      | some nval =>
        rw [hns] at h
        exact ih [] rest nval stack r h
      | none =>
        rw [hns] at h
        cases hcls : clsMatch l with
        | some cname =>
          rw [hcls] at h
          simp only [List.mem_append] at h
          rcases h with h | h
          · by_cases hdb : docBlockOf pending ≠ ""
            · rw [if_pos hdb] at h
              simp only [List.mem_singleton] at h
              subst h
              exact classBranchRecord_hintInv _ _ _
            · rw [if_neg hdb] at h
              simp at h
          · exact ih [] rest ns (cname :: stack) r h
        | none =>
          rw [hcls] at h
          by_cases hdoc : isDocLine l = true
          · rw [if_pos hdoc] at h
            cases hrest2 : rest.dropWhile isDocLine with
            | nil =>
              rw [hrest2] at h
              simp at h
            | cons decl tail =>
              rw [hrest2] at h
              simp only [List.mem_append] at h
              rcases h with h | h
              · rcases hpd : parseDeclaration decl (docText (l :: rest.takeWhile isDocLine))
                    ns (stack.headD "") with _ | r2
                · rw [hpd] at h
                  simp [Option.toList] at h
                · rw [hpd] at h
                  simp only [Option.toList, List.mem_singleton] at h
                  subst h
                  exact parseDeclaration_hintInv _ _ _ _ _ hpd
              · exact ih (l :: rest.takeWhile isDocLine) (decl :: tail) ns stack r h
          · rw [if_neg hdoc] at h
            exact ih [] rest ns stack r h

theorem memberToRec_hintInv (m : Xml) (r : ApiRecord) (h : memberToRec m = some r) :
    hintInv r := by
  unfold memberToRec at h
  dsimp only at h
  repeat' split at h
  all_goals first
    | (obtain rfl := Option.some.inj h
       unfold hintInv
       constructor <;> intro hx <;> simp_all)
    | exact absurd h (by simp)

/-- C10.  Both parsers set `deprecation_hint` only under the `deprecated`
guard: for every record either emits, a non-empty hint implies the
deprecated flag, and a non-deprecated record carries an empty hint. -/
theorem parsers_hint_only_when_deprecated :
    (∀ (root : Xml) (r : ApiRecord), r ∈ parseXmlRecords root →
      (r.deprecation_hint ≠ "" → r.deprecated = true) ∧
      (r.deprecated = false → r.deprecation_hint = "")) ∧
    (∀ (lines : List String) (r : ApiRecord), r ∈ parseCsLines lines →
      (r.deprecation_hint ≠ "" → r.deprecated = true) ∧
      (r.deprecated = false → r.deprecation_hint = "")) := by
  constructor
  · intro root r h
    unfold parseXmlRecords at h
    obtain ⟨m, _, hm⟩ := List.mem_filterMap.mp h
    exact memberToRec_hintInv m r hm
  · intro lines r h
    exact scanCsF_hintInv _ _ _ _ _ r h

/-- C10 witness: a deprecated XML member with a hint, and a never-hinted
non-deprecated comment-parser record, via
`parsers_hint_only_when_deprecated`. -/
theorem parsers_hint_only_when_deprecated_witness :
    (parseXmlRecords (Xml.el "doc" [] none
      [Xml.el "member" [("name", "M:N.C.Foo")] none
        [Xml.el "summary" [] (some "Obsolete. Use Bar instead.") [] none] none]
      none) = [⟨"N.C.Foo", "N", "C", "Foo", "method", "Obsolete. Use Bar instead.",
        [], "", true, "Bar"⟩]) ∧
    (⟨"N.C.Foo", "N", "C", "Foo", "method", "Obsolete. Use Bar instead.",
      [], "", true, "Bar"⟩ : ApiRecord).deprecated = true := by
  refine ⟨by decide, ?_⟩
  exact (parsers_hint_only_when_deprecated.1
    (Xml.el "doc" [] none
      [Xml.el "member" [("name", "M:N.C.Foo")] none
        [Xml.el "summary" [] (some "Obsolete. Use Bar instead.") [] none] none]
      none)
    ⟨"N.C.Foo", "N", "C", "Foo", "method", "Obsolete. Use Bar instead.",
      [], "", true, "Bar"⟩ (by decide)).1 (by decide)

end UnityApiMcp
